import Mathlib

/-!
Verification development for the FCMC (Formal Circuit Minimization Compiler)
repository: a compiler from a small imperative language to optimized
arithmetic circuits for zero-knowledge proof systems.

The embedding covers:
* the recursive-descent parser (`src/frontend/parser.rs`), embedded as a
  fuel-indexed state-passing parser over token lists, with an explicit
  `panicOOB` outcome that models a Rust index-out-of-bounds panic;
* the top-level compilation pipeline (`src/lib.rs`), embedded as a function
  parameterized over the five pipeline stages;
* the IR graph, its evaluation semantics, IR construction from the AST, and
  the optimization passes.  The `ir`, `optimization`, `backend` and `utils`
  modules are not present in the repository sources, so those definitions are
  modelled from the specification (each such definition carries a doc comment
  starting with "Modelled from the spec:").

The circuit field is modelled as the prime field `ZMod 101` (the
specification leaves the concrete finite field abstract).
-/

/-- Field of circuit values; the spec requires a finite field and leaves the
modulus abstract, so a small prime is used. -/
abbrev F : Type := ZMod 101

instance : Fact (Nat.Prime 101) := ⟨by norm_num⟩

/-- Error enumeration of `FCMCError` in `src/lib.rs` (one variant per
pipeline stage, each carrying a message). -/
inductive FCMCError where
  | ParseError (msg : String)
  | TypeError (msg : String)
  | SemanticError (msg : String)
  | OptimizationError (msg : String)
  | BackendError (msg : String)
  | VerificationError (msg : String)
  deriving DecidableEq

/-- Token kinds used by `Parser` in `src/frontend/parser.rs` (the enum itself
lives in the absent `language` module; the constructors are exactly those the
parser matches on). -/
inductive TokenKind where
  | fnK | constraintK | structK | letK | ifK | elseK | forK | inK | returnK | assertK
  | identifier | number
  | fieldK | boolK | u32K
  | lparen | rparen | lbrace | rbrace | lbracket | rbracket
  | colon | semicolon | comma | arrow | rangeK
  | equals | equalsEquals | bangEquals | bang
  | less | lessEquals | greater | greaterEquals
  | plus | minus | star | slash | percent
  deriving DecidableEq

/-- Token: a kind together with its source lexeme. -/
structure Token where
  kind : TokenKind
  lexeme : String
  deriving DecidableEq

/-- Value-domain types of the language: Field, Bool, U32, fixed-size arrays
and Unit (spec section 2; the Rust `Type` enum lives in the absent
`language::types` module). -/
inductive Ty where
  | field
  | boolT
  | u32
  | array (elem : Ty) (size : Nat)
  | unit
  deriving DecidableEq

/-- Literals as constructed by the parser (`Literal::Number(String)`). -/
inductive Lit where
  | number (s : String)

/-- Binary operators as constructed by the parser. -/
inductive BinaryOp where
  | add | sub | mul | div | mod | eq | ne | lt | le | gt | ge
  deriving DecidableEq

/-- Unary operators as constructed by the parser. -/
inductive UnaryOp where
  | neg | notOp
  deriving DecidableEq

/-- Expressions of the AST, with exactly the variants `parser.rs`
constructs. -/
inductive Expression where
  | lit (l : Lit)
  | var (name : String)
  | binary (left : Expression) (op : BinaryOp) (right : Expression)
  | unary (op : UnaryOp) (e : Expression)
  | assign (lhs rhs : Expression)
  | call (name : String) (args : List Expression)
  | arr (elems : List Expression)

/-- Statements of the AST.  `letS`, `ifS` and `forS` mirror the records built
in `parser.rs`; `ret`, `assertS` and `exprS` are the Return/Assert/Expression
variants named by the spec (section 6) whose parsers are among the functions
missing from the source file. -/
inductive Statement where
  | letS (name : String) (varType : Option Ty) (value : Expression)
  | ifS (condition : Expression) (thenBranch : List Statement)
        (elseBranch : Option (List Statement))
  | forS (varName : String) (start stop : Expression) (body : List Statement)
  | ret (e : Expression)
  | assertS (e : Expression)
  | exprS (e : Expression)

/-- Functions as built by `Parser::parse_function`. -/
structure Function where
  name : String
  params : List (String × Ty)
  return_type : Ty
  body : List Statement
  is_public : Bool

/-- Constraints as built by `Parser::parse_constraint`. -/
structure Constraint where
  name : String
  params : List (String × Ty)
  body : Expression

/-- Programs as built by `Parser::parse_program`. -/
structure Program where
  functions : List Function
  constraints : List Constraint
  entry_point : String

/-- Model of Rust `str::parse::<usize>()`: an optional leading plus sign
followed by one or more ASCII digits, whose value fits in 64 bits (usize is
modelled as 64-bit). -/
def rustParseUsize (s : String) : Option Nat :=
  let cs := s.toList
  let cs := match cs with
    | '+' :: rest => rest
    | other => other
  if cs = [] then none
  else if cs.all Char.isDigit then
    let v := cs.foldl (fun acc c => acc * 10 + (c.toNat - 48)) 0
    if v < 2 ^ 64 then some v else none
  else none

/-- Digits-only numeral reading used when IR construction interprets a
`Literal::Number` lexeme. -/
def natOfDigits (s : String) : Option Nat :=
  let cs := s.toList
  if cs = [] then none
  else if cs.all Char.isDigit then
    some (cs.foldl (fun acc c => acc * 10 + (c.toNat - 48)) 0)
  else none

/-- Modelled from the spec: `Type::from_name` lives in the absent
`language::types` module.  The spec (section 2) says the type system
"resolves named type tokens to these variants", so the four named scalar
variants are resolved by name and anything else is a `TypeError`. -/
def Ty.from_name (name : String) : Except FCMCError Ty :=
  if name = "Field" then .ok .field
  else if name = "Bool" then .ok .boolT
  else if name = "U32" then .ok .u32
  else if name = "Unit" then .ok .unit
  else .error (.TypeError ("Unknown type name: " ++ name))

/-! ### Parser state and result monad

`Parser` in `parser.rs` owns a token vector, a position, and a symbol table.
The result type has four outcomes: success (with the updated parser state),
a returned `Err(FCMCError)`, a Rust panic from an out-of-bounds index
(`panicOOB`), and exhaustion of the recursion fuel of the embedding
(`fuelOut`, which no real execution path produces for sufficiently large
fuel). -/

/-- Parser state: `tokens`, `position` and `symbol_table` fields of
`Parser`. -/
structure PState where
  tokens : List Token
  position : Nat
  symbol_table : List (String × Ty)

/-- Result of running one parser action. -/
inductive PResult (α : Type) where
  | ok (a : α) (s : PState)
  | err (e : FCMCError)
  | panicOOB
  | fuelOut

/-- A parser action: state-passing over `PState`. -/
def ParserM (α : Type) : Type := PState → PResult α

/-- Sequencing of parser actions; errors, panics and fuel exhaustion
propagate. -/
def pbind {α β : Type} (m : ParserM α) (f : α → ParserM β) : ParserM β :=
  fun s =>
    match m s with
    | .ok a s' => f a s'
    | .err e => .err e
    | .panicOOB => .panicOOB
    | .fuelOut => .fuelOut

/-- Returning a value without touching the state. -/
def ppure {α : Type} (a : α) : ParserM α := fun s => .ok a s

instance : Monad ParserM where
  pure := ppure
  bind := pbind

/-- Raising a `ParseError` (the `return Err(...)` paths of the parser). -/
def perrM {α : Type} (msg : String) : ParserM α := fun _ => .err (.ParseError msg)

/-- Raising an arbitrary `FCMCError` (used when `Type::from_name` fails). -/
def perrE {α : Type} (e : FCMCError) : ParserM α := fun _ => .err e

/-- `Parser::is_at_end`: `self.position >= self.tokens.len()`. -/
def isAtEndM : ParserM Bool :=
  fun s => .ok (decide (s.tokens.length ≤ s.position)) s

/-- `Parser::peek`: `&self.tokens[self.position]`, with no bounds check — at
end of input the Rust index panics, modelled by `panicOOB`. -/
def peekM : ParserM Token :=
  fun s =>
    if h : s.position < s.tokens.length then
      .ok (s.tokens.get ⟨s.position, h⟩) s
    else
      .panicOOB

/-- `Parser::advance`: increments the position unless at end, then returns
`&self.tokens[self.position - 1]`.  With `position = 0` on an empty token
list the Rust `usize` subtraction panics (debug) or wraps to an enormous
index (release); both are an index panic, modelled by `panicOOB`. -/
def advanceM : ParserM Token :=
  fun s =>
    let s' := if s.tokens.length ≤ s.position then s
              else { s with position := s.position + 1 }
    if s'.position = 0 then .panicOOB
    else if h : s'.position - 1 < s'.tokens.length then
      .ok (s'.tokens.get ⟨s'.position - 1, h⟩) s'
    else .panicOOB

/-- `Parser::check`: `!self.is_at_end() && self.peek().kind == kind` (the
peek here is guarded, so no panic). -/
def checkM (k : TokenKind) : ParserM Bool :=
  fun s =>
    if h : s.position < s.tokens.length then
      .ok (decide ((s.tokens.get ⟨s.position, h⟩).kind = k)) s
    else
      .ok false s

/-- `Parser::consume`: advance if the next token matches, else a
`ParseError` with the given message. -/
def consumeM (k : TokenKind) (msg : String) : ParserM Token :=
  pbind (checkM k) fun c => if c then advanceM else perrM msg

/-- `Parser::consume_identifier`: `Ok(Some(lexeme))` on an identifier,
`Ok(None)` otherwise. -/
def consumeIdentM : ParserM (Option String) :=
  pbind (checkM .identifier) fun c =>
    if c then pbind advanceM fun t => ppure (some t.lexeme)
    else ppure none

/-- Symbol-table insertion (`self.symbol_table.insert(name, ty)`); the
parser only ever writes this map. -/
def insertSymM (name : String) (t : Ty) : ParserM Unit :=
  fun s => .ok () { s with symbol_table := (name, t) :: (s.symbol_table.filter fun p => p.1 ≠ name) }

/-! ### The recursive-descent parser

Each `parse_*` method of `Parser` becomes a field of a pack of parser
actions; the pack at fuel `n + 1` is built from the pack at fuel `n`, so all
recursion is structural in the fuel.  The `while` loops of the Rust code
become accumulator-passing tail fields (`…TailP`, `paramsP`, `argsP`,
`elemsP`, `blockP`). -/

/-- Fuel exhaustion of the embedding. -/
def pfuel {α : Type} : ParserM α := fun _ => .fuelOut

/-- Branching on a Bool inside a bind position (kept as a function so that
the monadic sequencing stays linear). -/
def iteM {α : Type} (c : Bool) (t e : ParserM α) : ParserM α :=
  if c then t else e

/-- Pack of all parser actions at one fuel level. -/
structure PPack where
  fnP : ParserM Function
  paramsP : String → List (String × Ty) → ParserM (List (String × Ty))
  blockP : ParserM (List Statement)
  stmtP : ParserM Statement
  letP : ParserM Statement
  ifP : ParserM Statement
  forP : ParserM Statement
  retP : ParserM Statement
  assertP : ParserM Statement
  exprStmtP : ParserM Statement
  exprP : ParserM Expression
  assignP : ParserM Expression
  eqP : ParserM Expression
  eqTailP : Expression → ParserM Expression
  cmpP : ParserM Expression
  cmpTailP : Expression → ParserM Expression
  termP : ParserM Expression
  termTailP : Expression → ParserM Expression
  factorP : ParserM Expression
  factorTailP : Expression → ParserM Expression
  unaryP : ParserM Expression
  primaryP : ParserM Expression
  callP : String → ParserM Expression
  argsP : List Expression → ParserM (List Expression)
  arrayP : ParserM Expression
  elemsP : List Expression → ParserM (List Expression)
  typeP : ParserM Ty
  constraintP : ParserM Constraint
  structP : ParserM Unit
  structSkipP : ParserM Unit

/-- `Parser::parse_function`. -/
def fnBody (p : PPack) : ParserM Function := do
  let _ ← consumeM .fnK "Expected 'fn'"
  let no ← consumeIdentM
  match no with
  | none => perrM "Expected function name"
  | some name => do
    let _ ← consumeM .lparen "Expected '('"
    let cr ← checkM .rparen
    let params ← iteM cr (ppure []) (p.paramsP "Expected ':' after parameter name" [])
    let _ ← consumeM .rparen "Expected ')'"
    let ca ← checkM .arrow
    let rt ← iteM ca (pbind advanceM fun _ => p.typeP) (ppure Ty.unit)
    let _ ← consumeM .lbrace "Expected '\x7b'"
    let body ← p.blockP
    let _ ← consumeM .rbrace "Expected '\x7d'"
    ppure { name := name, params := params, return_type := rt, body := body,
            is_public := name == "main" }

/-- Parameter-list loop shared by `parse_function` and `parse_constraint`
(the colon error message differs between the two call sites). -/
def paramsBody (p : PPack) (msg : String) (acc : List (String × Ty)) :
    ParserM (List (String × Ty)) := do
  let io ← consumeIdentM
  match io with
  | none => ppure acc
  | some pname => do
    let _ ← consumeM .colon msg
    let ty ← p.typeP
    let acc' := acc ++ [(pname, ty)]
    let cc ← checkM .comma
    if cc then do
      let _ ← advanceM
      p.paramsP msg acc'
    else ppure acc'

/-- `Parser::parse_block`: statements until a right brace or end of input. -/
def blockBody (p : PPack) : ParserM (List Statement) := do
  let cr ← checkM .rbrace
  if cr then ppure []
  else do
    let e ← isAtEndM
    if e then ppure []
    else do
      let st ← p.stmtP
      let rest ← p.blockP
      ppure (st :: rest)

/-- `Parser::parse_statement`: dispatch on the peeked token kind (an
unguarded `peek`). -/
def stmtBody (p : PPack) : ParserM Statement := do
  let t ← peekM
  if t.kind = .letK then p.letP
  else if t.kind = .ifK then p.ifP
  else if t.kind = .forK then p.forP
  else if t.kind = .returnK then p.retP
  else if t.kind = .assertK then p.assertP
  else p.exprStmtP

/-- `Parser::parse_let_statement`. -/
def letBody (p : PPack) : ParserM Statement := do
  let _ ← consumeM .letK "Expected 'let'"
  let no ← consumeIdentM
  match no with
  | none => perrM "Expected variable name"
  | some name => do
    let cc ← checkM .colon
    let vt ← if cc then do
        let _ ← advanceM
        pbind p.typeP fun t => ppure (some t)
      else ppure none
    let _ ← consumeM .equals "Expected '='"
    let value ← p.exprP
    let _ ← consumeM .semicolon "Expected ';'"
    let _ ← match vt with
      | some t => insertSymM name t
      | none => ppure ()
    ppure (Statement.letS name vt value)

/-- `Parser::parse_if_statement` (with the `else`/`else if` chain). -/
def ifBody (p : PPack) : ParserM Statement := do
  let _ ← consumeM .ifK "Expected 'if'"
  let condition ← p.exprP
  let _ ← consumeM .lbrace "Expected '\x7b'"
  let thenB ← p.blockP
  let _ ← consumeM .rbrace "Expected '\x7d'"
  let ce ← checkM .elseK
  let elseB ← if ce then do
      let _ ← advanceM
      let cb ← checkM .lbrace
      if cb then do
        let _ ← consumeM .lbrace "Expected '\x7b'"
        let blk ← p.blockP
        let _ ← consumeM .rbrace "Expected '\x7d'"
        ppure (some blk)
      else do
        let ci ← checkM .ifK
        if ci then pbind p.ifP fun st => ppure (some [st])
        else ppure (none : Option (List Statement))
    else ppure none
  ppure (Statement.ifS condition thenB elseB)

/-- `Parser::parse_for_statement`. -/
def forBody (p : PPack) : ParserM Statement := do
  let _ ← consumeM .forK "Expected 'for'"
  let vo ← consumeIdentM
  match vo with
  | none => perrM "Expected loop variable"
  | some varName => do
    let _ ← consumeM .inK "Expected 'in'"
    let start ← p.exprP
    let _ ← consumeM .rangeK "Expected '..'"
    let stop ← p.exprP
    let _ ← consumeM .lbrace "Expected '\x7b'"
    let body ← p.blockP
    let _ ← consumeM .rbrace "Expected '\x7d'"
    ppure (Statement.forS varName start stop body)

/-- Modelled from the spec: `parse_return_statement` is called by
`parse_statement` but is among the methods missing from `parser.rs`; the
spec (section 6) names the Return statement variant, so the standard shape
`return <expr> ;` is used. -/
def retBody (p : PPack) : ParserM Statement := do
  let _ ← consumeM .returnK "Expected 'return'"
  let e ← p.exprP
  let _ ← consumeM .semicolon "Expected ';'"
  ppure (Statement.ret e)

/-- Modelled from the spec: `parse_assert_statement` is missing from
`parser.rs`; the spec names the Assert variant, shape `assert <expr> ;`. -/
def assertBody (p : PPack) : ParserM Statement := do
  let _ ← consumeM .assertK "Expected 'assert'"
  let e ← p.exprP
  let _ ← consumeM .semicolon "Expected ';'"
  ppure (Statement.assertS e)

/-- Modelled from the spec: `parse_expression_statement` is missing from
`parser.rs`; the spec names the ExpressionStatement variant, shape
`<expr> ;`. -/
def exprStmtBody (p : PPack) : ParserM Statement := do
  let e ← p.exprP
  let _ ← consumeM .semicolon "Expected ';'"
  ppure (Statement.exprS e)

/-- `Parser::parse_expression`: delegates to assignment parsing. -/
def exprBody (p : PPack) : ParserM Expression := p.assignP

/-- `Parser::parse_assignment`. -/
def assignBody (p : PPack) : ParserM Expression := do
  let e ← p.eqP
  let ce ← checkM .equals
  if ce then do
    let _ ← advanceM
    let v ← p.assignP
    ppure (Expression.assign e v)
  else ppure e

/-- `Parser::parse_equality` (loop entry). -/
def eqBody (p : PPack) : ParserM Expression := do
  let e ← p.cmpP
  p.eqTailP e

/-- `Parser::parse_equality` loop: `==` / `!=` chains. -/
def eqTailBody (p : PPack) (e : Expression) : ParserM Expression := do
  let c1 ← checkM .equalsEquals
  let c2 ← checkM .bangEquals
  if c1 || c2 then do
    let t ← advanceM
    let right ← p.cmpP
    let op := if t.kind = .equalsEquals then BinaryOp.eq else BinaryOp.ne
    p.eqTailP (Expression.binary e op right)
  else ppure e

/-- `Parser::parse_comparison` (loop entry). -/
def cmpBody (p : PPack) : ParserM Expression := do
  let e ← p.termP
  p.cmpTailP e

/-- `Parser::parse_comparison` loop: `<` `<=` `>` `>=` chains. -/
def cmpTailBody (p : PPack) (e : Expression) : ParserM Expression := do
  let c1 ← checkM .less
  let c2 ← checkM .lessEquals
  let c3 ← checkM .greater
  let c4 ← checkM .greaterEquals
  if c1 || c2 || c3 || c4 then do
    let t ← advanceM
    let right ← p.termP
    let op := if t.kind = .less then BinaryOp.lt
              else if t.kind = .lessEquals then BinaryOp.le
              else if t.kind = .greater then BinaryOp.gt
              else BinaryOp.ge
    p.cmpTailP (Expression.binary e op right)
  else ppure e

/-- `Parser::parse_term` (loop entry). -/
def termBody (p : PPack) : ParserM Expression := do
  let e ← p.factorP
  p.termTailP e

/-- `Parser::parse_term` loop: `+` / `-` chains. -/
def termTailBody (p : PPack) (e : Expression) : ParserM Expression := do
  let c1 ← checkM .plus
  let c2 ← checkM .minus
  if c1 || c2 then do
    let t ← advanceM
    let right ← p.factorP
    let op := if t.kind = .plus then BinaryOp.add else BinaryOp.sub
    p.termTailP (Expression.binary e op right)
  else ppure e

/-- `Parser::parse_factor` (loop entry). -/
def factorBody (p : PPack) : ParserM Expression := do
  let e ← p.unaryP
  p.factorTailP e

/-- `Parser::parse_factor` loop: `*` `/` `%` chains. -/
def factorTailBody (p : PPack) (e : Expression) : ParserM Expression := do
  let c1 ← checkM .star
  let c2 ← checkM .slash
  let c3 ← checkM .percent
  if c1 || c2 || c3 then do
    let t ← advanceM
    let right ← p.unaryP
    let op := if t.kind = .star then BinaryOp.mul
              else if t.kind = .slash then BinaryOp.div
              else BinaryOp.mod
    p.factorTailP (Expression.binary e op right)
  else ppure e

/-- `Parser::parse_unary`: a leading `-` or `!` is consumed and `parse_unary`
recurses; afterwards `parse_primary` runs (this is the code path that walks
past a trailing unary operator). -/
def unaryBody (p : PPack) : ParserM Expression := do
  let c1 ← checkM .minus
  let c2 ← checkM .bang
  if c1 || c2 then do
    let t ← advanceM
    let right ← p.unaryP
    ppure (Expression.unary (if t.kind = .minus then UnaryOp.neg else UnaryOp.notOp) right)
  else p.primaryP

/-- `Parser::parse_primary`: dispatch on an unguarded `peek` (this is where
the index panic fires at end of input). -/
def primaryBody (p : PPack) : ParserM Expression := do
  let t ← peekM
  if t.kind = .number then do
    let v ← advanceM
    ppure (Expression.lit (Lit.number v.lexeme))
  else if t.kind = .identifier then do
    let v ← advanceM
    let cl ← checkM .lparen
    if cl then p.callP v.lexeme
    else ppure (Expression.var v.lexeme)
  else if t.kind = .lparen then do
    let _ ← advanceM
    let e ← p.exprP
    let _ ← consumeM .rparen "Expected ')'"
    ppure e
  else if t.kind = .lbracket then p.arrayP
  else perrM "Unexpected token in expression"

/-- `Parser::parse_function_call`. -/
def callBody (p : PPack) (name : String) : ParserM Expression := do
  let _ ← consumeM .lparen "Expected '('"
  let cr ← checkM .rparen
  let args ← if cr then ppure [] else p.argsP []
  let _ ← consumeM .rparen "Expected ')'"
  ppure (Expression.call name args)

/-- Argument loop of `parse_function_call`. -/
def argsBody (p : PPack) (acc : List Expression) : ParserM (List Expression) := do
  let a ← p.exprP
  let acc' := acc ++ [a]
  let cc ← checkM .comma
  if cc then do
    let _ ← advanceM
    p.argsP acc'
  else ppure acc'

/-- `Parser::parse_array`. -/
def arrayBody (p : PPack) : ParserM Expression := do
  let _ ← consumeM .lbracket "Expected '['"
  let cr ← checkM .rbracket
  let elems ← if cr then ppure [] else p.elemsP []
  let _ ← consumeM .rbracket "Expected ']'"
  ppure (Expression.arr elems)

/-- Element loop of `parse_array`. -/
def elemsBody (p : PPack) (acc : List Expression) : ParserM (List Expression) := do
  let a ← p.exprP
  let acc' := acc ++ [a]
  let cc ← checkM .comma
  if cc then do
    let _ ← advanceM
    p.elemsP acc'
  else ppure acc'

/-- `Parser::parse_type`: keyword types directly; an identifier resolves via
`Type::from_name`, optionally with an `[size]` suffix whose numeric lexeme is
read with `parse::<usize>().unwrap_or(0)`. -/
def typeBody (p : PPack) : ParserM Ty := do
  let t ← peekM
  if t.kind = .fieldK then do
    let _ ← advanceM
    ppure Ty.field
  else if t.kind = .boolK then do
    let _ ← advanceM
    ppure Ty.boolT
  else if t.kind = .u32K then do
    let _ ← advanceM
    ppure Ty.u32
  else if t.kind = .identifier then do
    let v ← advanceM
    let cb ← checkM .lbracket
    if cb then do
      let _ ← advanceM
      let se ← p.exprP
      match se with
      | .lit (.number n) => do
        let size := (rustParseUsize n).getD 0
        let _ ← consumeM .rbracket "Expected ']'"
        match Ty.from_name v.lexeme with
        | .ok et => ppure (Ty.array et size)
        | .error e => perrE e
      | _ => perrM "Expected array size"
    else
      match Ty.from_name v.lexeme with
      | .ok ty => ppure ty
      | .error e => perrE e
  else perrM "Expected type"

/-- `Parser::parse_constraint`. -/
def constraintBody (p : PPack) : ParserM Constraint := do
  let _ ← consumeM .constraintK "Expected 'constraint'"
  let no ← consumeIdentM
  match no with
  | none => perrM "Expected constraint name"
  | some name => do
    let _ ← consumeM .lparen "Expected '('"
    let cr ← checkM .rparen
    let params ← if cr then ppure [] else p.paramsP "Expected ':'" []
    let _ ← consumeM .rparen "Expected ')'"
    let _ ← consumeM .lbrace "Expected '\x7b'"
    let body ← p.exprP
    let _ ← consumeM .rbrace "Expected '\x7d'"
    ppure { name := name, params := params, body := body }

/-- Modelled from the spec: `parse_struct` is called by `parse_program` and
its result discarded, but the method is missing from `parser.rs` and struct
declarations are out of the spec's scope; the model consumes the `struct`
keyword and skips tokens through the next right brace. -/
def structBody (p : PPack) : ParserM Unit := do
  let _ ← consumeM .structK "Expected 'struct'"
  p.structSkipP

/-- Token-skipping loop of the modelled `parse_struct`. -/
def structSkipBody (p : PPack) : ParserM Unit := do
  let e ← isAtEndM
  if e then perrM "Unterminated struct definition"
  else do
    let cr ← checkM .rbrace
    let _ ← advanceM
    if cr then ppure () else p.structSkipP

/-- The pack of parser actions at each fuel level; fuel `0` is exhaustion,
and level `n + 1` wires every body to the pack at level `n`. -/
def parsersAt : Nat → PPack
  | 0 =>
    { fnP := pfuel, paramsP := fun _ _ => pfuel, blockP := pfuel, stmtP := pfuel,
      letP := pfuel, ifP := pfuel, forP := pfuel, retP := pfuel, assertP := pfuel,
      exprStmtP := pfuel, exprP := pfuel, assignP := pfuel, eqP := pfuel,
      eqTailP := fun _ => pfuel, cmpP := pfuel, cmpTailP := fun _ => pfuel,
      termP := pfuel, termTailP := fun _ => pfuel, factorP := pfuel,
      factorTailP := fun _ => pfuel, unaryP := pfuel, primaryP := pfuel,
      callP := fun _ => pfuel, argsP := fun _ => pfuel, arrayP := pfuel,
      elemsP := fun _ => pfuel, typeP := pfuel, constraintP := pfuel,
      structP := pfuel, structSkipP := pfuel }
  | n + 1 =>
    let p := parsersAt n
    { fnP := fnBody p, paramsP := paramsBody p, blockP := blockBody p,
      stmtP := stmtBody p, letP := letBody p, ifP := ifBody p, forP := forBody p,
      retP := retBody p, assertP := assertBody p, exprStmtP := exprStmtBody p,
      exprP := exprBody p, assignP := assignBody p, eqP := eqBody p,
      eqTailP := eqTailBody p, cmpP := cmpBody p, cmpTailP := cmpTailBody p,
      termP := termBody p, termTailP := termTailBody p, factorP := factorBody p,
      factorTailP := factorTailBody p, unaryP := unaryBody p,
      primaryP := primaryBody p, callP := callBody p, argsP := argsBody p,
      arrayP := arrayBody p, elemsP := elemsBody p, typeP := typeBody p,
      constraintP := constraintBody p, structP := structBody p,
      structSkipP := structSkipBody p }

/-- `Parser::parse_program` main loop: dispatch on the peeked token kind,
accumulating functions and constraints (struct results are discarded). -/
def parseProgramLoop : Nat → ParserM (List Function × List Constraint)
  | 0 => pfuel
  | fuel + 1 => do
    let e ← isAtEndM
    if e then ppure ([], [])
    else do
      let t ← peekM
      if t.kind = .fnK then do
        let f ← (parsersAt fuel).fnP
        let rest ← parseProgramLoop fuel
        ppure (f :: rest.1, rest.2)
      else if t.kind = .constraintK then do
        let c ← (parsersAt fuel).constraintP
        let rest ← parseProgramLoop fuel
        ppure (rest.1, c :: rest.2)
      else if t.kind = .structK then do
        let _ ← (parsersAt fuel).structP
        parseProgramLoop fuel
      else perrM "Unexpected token at program level"

/-- `Parser::parse_program`: run the loop, then build the `Program` with the
hard-coded entry point `"main"`. -/
def parseProgram (fuel : Nat) : ParserM Program := do
  let fc ← parseProgramLoop fuel
  ppure { functions := fc.1, constraints := fc.2, entry_point := "main" }

/-- `Parser::new(tokens)`: position `0` and an empty symbol table. -/
def initPState (tokens : List Token) : PState :=
  { tokens := tokens, position := 0, symbol_table := [] }

/-! ### IR graph and evaluation semantics

Modelled from the spec (sections 3, 4.1): nodes are typed gates addressed by
a dense integer id; a graph owns the node arena plus input and output name
lists; the operand relation must be acyclic (operands strictly smaller than
the node id).  The node arena is an association list from id to node, built
in strictly increasing id order.  All wires carry field values (the glossary:
every other type is encoded in terms of the field, with booleans as 0/1). -/

/-- Node kinds of the IR (spec section 3); the scalar core used by the
modelled IR construction: inputs, constants, field arithmetic, equality and
order comparisons, boolean negation, select and outputs. -/
inductive NodeKind where
  | input (name : String)
  | constNode (v : F)
  | add
  | sub
  | mul
  | neg
  | div
  | eqk
  | ltk
  | lek
  | gtk
  | gek
  | notk
  | select
  | output (name : String)
  deriving DecidableEq

/-- A gate: kind plus ordered operand ids. -/
structure Node where
  kind : NodeKind
  operands : List Nat
  deriving DecidableEq

/-- The IR graph: node arena (id-keyed association list in increasing id
order), declared input names, and output name-to-id bindings. -/
structure IRGraph where
  nodes : List (Nat × Node)
  inputs : List String
  outputs : List (String × Nat)
  deriving DecidableEq

/-- `IRGraph::node_count()`. -/
def IRGraph.node_count (g : IRGraph) : Nat := g.nodes.length

/-- Lookup of a node by id in the arena. -/
def findNode : List (Nat × Node) → Nat → Option Node
  | [], _ => none
  | (j, nd) :: rest, i => if j = i then some nd else findNode rest i

/-- Gate semantics over field values.  Booleans are encoded as 0/1, order
comparisons compare canonical representatives, division uses the total field
convention (inverse of zero is zero; the spec treats a zero divisor as a
witness-generation failure, which no claim here exercises), and a gate
applied to the wrong number of operands yields 0. -/
def evalKind (w : String → F) : NodeKind → List F → F
  | .input name, _ => w name
  | .constNode v, _ => v
  | .add, [a, b] => a + b
  | .sub, [a, b] => a - b
  | .mul, [a, b] => a * b
  | .neg, [a] => -a
  | .div, [a, b] => a * b⁻¹
  | .eqk, [a, b] => if a = b then 1 else 0
  | .ltk, [a, b] => if a.val < b.val then 1 else 0
  | .lek, [a, b] => if a.val ≤ b.val then 1 else 0
  | .gtk, [a, b] => if b.val < a.val then 1 else 0
  | .gek, [a, b] => if b.val ≤ a.val then 1 else 0
  | .notk, [a] => 1 - a
  | .select, [c, a, b] => if c = 1 then a else b
  | .output _, [a] => a
  | _, _ => 0

/-- Fuelled evaluation of node `i`: operands are only followed when their id
is strictly smaller (the acyclicity invariant makes this exhaustive). -/
def evalNodeF (nodes : List (Nat × Node)) (w : String → F) : Nat → Nat → F
  | 0, _ => 0
  | fuel + 1, i =>
    match findNode nodes i with
    | none => 0
    | some nd =>
      evalKind w nd.kind
        (nd.operands.map fun j => if j < i then evalNodeF nodes w fuel j else 0)

/-- Value of node `i` under witness `w`. -/
def evalNode (nodes : List (Nat × Node)) (w : String → F) (i : Nat) : F :=
  evalNodeF nodes w (i + 1) i

/-- One evaluation step with an explicit environment for operand values. -/
def evalWith (w : String → F) (nodes : List (Nat × Node)) (rec : Nat → F)
    (i : Nat) : F :=
  match findNode nodes i with
  | none => 0
  | some nd => evalKind w nd.kind (nd.operands.map rec)

/-- Output values of a graph under a witness, in output-declaration order. -/
def evalOutputs (g : IRGraph) (w : String → F) : List (String × F) :=
  g.outputs.map fun q => (q.1, evalNode g.nodes w q.2)

/-- Acyclicity invariant: every operand id is strictly smaller than the id of
the node that reads it. -/
def AcyclicN (nodes : List (Nat × Node)) : Prop :=
  ∀ p ∈ nodes, ∀ j ∈ p.2.operands, j < p.1

/-- Acyclicity of a graph. -/
def IRGraph.Acyclic (g : IRGraph) : Prop := AcyclicN g.nodes

/-- Arena keys are strictly increasing (creation order). -/
def SortedN (nodes : List (Nat × Node)) : Prop :=
  List.Pairwise (fun p q => p.1 < q.1) nodes

/-- Well-formedness carried through the optimization pipeline. -/
def IRGraph.WF (g : IRGraph) : Prop := AcyclicN g.nodes ∧ SortedN g.nodes

instance (nodes : List (Nat × Node)) : Decidable (AcyclicN nodes) := by
  unfold AcyclicN; infer_instance

instance (nodes : List (Nat × Node)) : Decidable (SortedN nodes) := by
  unfold SortedN; infer_instance

instance (g : IRGraph) : Decidable g.Acyclic := by
  unfold IRGraph.Acyclic; infer_instance

instance (g : IRGraph) : Decidable g.WF := by
  unfold IRGraph.WF; infer_instance

/-! ### IR construction from the AST

Modelled from the spec (sections 3 and 4.1): the `ir` module with
`IRGraph::from_ast` is missing from the repository sources.  The builder
keeps a monotone node-id counter owned exclusively by the graph builder;
node creation enforces the acyclicity invariant ("a node's operands must
have strictly smaller creation order, enforced at construction").  The
translation covers the scalar core: literals, variables, arithmetic and
comparison operators, `let`, assignment, `assert`, expression statements,
`if` (as a Select over both branches, both always evaluated), `for` (fully
unrolled, both bounds constant-foldable, else a SemanticError), and `return`
at the top level of a body.  Reads of unbound variables, calls and array
expressions are SemanticErrors in this scalar model. -/

/-- Builder state: node arena, next id, variable environment and the
accumulated output bindings. -/
structure BState where
  nodes : List (Nat × Node)
  next : Nat
  env : List (String × Nat)
  outputs : List (String × Nat)

/-- The graph-builder monad: state plus `FCMCError` failure. -/
def B (α : Type) : Type := BState → Except FCMCError (α × BState)

/-- Builder sequencing. -/
def bbind {α β : Type} (m : B α) (f : α → B β) : B β :=
  fun s =>
    match m s with
    | .ok (a, s') => f a s'
    | .error e => .error e

/-- Builder return. -/
def bpure {α : Type} (a : α) : B α := fun s => .ok (a, s)

instance : Monad B where
  pure := bpure
  bind := bbind

/-- Builder failure. -/
def throwB {α : Type} (e : FCMCError) : B α := fun _ => .error e

/-- Node creation: the spec's construction-time enforcement that no node may
reference a not-yet-created id. -/
def newNode (k : NodeKind) (ops : List Nat) : B Nat :=
  fun s =>
    if ∀ j ∈ ops, j < s.next then
      .ok (s.next, { s with nodes := s.nodes ++ [(s.next, ⟨k, ops⟩)],
                            next := s.next + 1 })
    else .error (.SemanticError "operand id out of creation order")

/-- Reading the variable environment. -/
def getEnvB : B (List (String × Nat)) := fun s => .ok (s.env, s)

/-- Replacing the variable environment. -/
def setEnvB (env : List (String × Nat)) : B Unit :=
  fun s => .ok ((), { s with env := env })

/-- Updating the variable environment. -/
def modifyEnvB (f : List (String × Nat) → List (String × Nat)) : B Unit :=
  fun s => .ok ((), { s with env := f s.env })

/-- Recording an output-name binding. -/
def addOutputB (name : String) (i : Nat) : B Unit :=
  fun s => .ok ((), { s with outputs := s.outputs ++ [(name, i)] })

/-- First binding of a name in an association list. -/
def lookupStr : List (String × Nat) → String → Option Nat
  | [], _ => none
  | (n, i) :: rest, name => if n = name then some i else lookupStr rest name

/-- Compile-time constant evaluation of loop bounds (spec 4.1: both bounds
must be constant-foldable before graph construction completes). -/
def constEvalExpr : Expression → Option Nat
  | .lit (.number s) => natOfDigits s
  | .binary l op r =>
    match constEvalExpr l, constEvalExpr r with
    | some a, some b =>
      match op with
      | .add => some (a + b)
      | .sub => some (a - b)
      | .mul => some (a * b)
      | _ => none
    | _, _ => none
  | _ => none

/-- Translation of an expression to a node id. -/
def translateExpr : Expression → B Nat
  | .lit (.number s) =>
    match natOfDigits s with
    | some n => newNode (.constNode (n : F)) []
    | none => throwB (.SemanticError "invalid numeric literal")
  | .var name =>
    bbind getEnvB fun env =>
      match lookupStr env name with
      | some i => bpure i
      | none => throwB (.SemanticError ("variable read before binding: " ++ name))
  | .binary l op r => do
    let a ← translateExpr l
    let b ← translateExpr r
    match op with
    | .add => newNode .add [a, b]
    | .sub => newNode .sub [a, b]
    | .mul => newNode .mul [a, b]
    | .div => newNode .div [a, b]
    | .mod => throwB (.SemanticError "modulo is not a circuit gate")
    | .eq => newNode .eqk [a, b]
    | .ne => do
        let e ← newNode .eqk [a, b]
        newNode .notk [e]
    | .lt => newNode .ltk [a, b]
    | .le => newNode .lek [a, b]
    | .gt => newNode .gtk [a, b]
    | .ge => newNode .gek [a, b]
  | .unary .neg e => do
    let a ← translateExpr e
    newNode .neg [a]
  | .unary .notOp e => do
    let a ← translateExpr e
    newNode .notk [a]
  | .assign lhs rhs =>
    match lhs with
    | .var name => do
      let i ← translateExpr rhs
      modifyEnvB (fun env => (name, i) :: env)
      bpure i
    | _ => throwB (.SemanticError "assignment target must be a variable")
  | .call _ _ => throwB (.SemanticError "call to an undefined function")
  | .arr _ => throwB (.SemanticError "array expressions are outside the scalar IR model")

/-- Merge of the two branch environments of an `if`: every variable of the
pre-branch environment whose bindings differ gets a Select node over the
condition (spec 4.1: `if` becomes Select over both branches' value graphs). -/
def mergeEnvs (ci : Nat) :
    List (String × Nat) → List (String × Nat) → List (String × Nat) →
    B (List (String × Nat))
  | [], _, _ => bpure []
  | (name, i0) :: rest, env1, env2 => do
    let m ← mergeEnvs ci rest env1 env2
    let i1 := (lookupStr env1 name).getD i0
    let i2 := (lookupStr env2 name).getD i0
    if i1 = i2 then bpure ((name, i1) :: m)
    else do
      let si ← newNode .select [ci, i1, i2]
      bpure ((name, si) :: m)

/-- Unrolling `for v in n1..n2 { body }` into `n2 - n1` copies of the body,
each preceded by a binding of the loop variable to the literal index (spec
4.1: ranges must unroll). -/
def expandFor (v : String) (body : List Statement) (n1 n2 : Nat) : List Statement :=
  (List.range' n1 (n2 - n1)).flatMap fun k =>
    Statement.letS v none (.lit (.number (toString k))) :: body

/-- Translation of a statement list; returns the node id of a top-level
`return` when one was reached.  The fuel bounds the total unrolled size. -/
def translateStmts : Nat → List Statement → B (Option Nat)
  | 0, _ => throwB (.SemanticError "IR construction fuel exhausted")
  | _ + 1, [] => bpure none
  | fuel + 1, stmt :: rest =>
    match stmt with
    | .letS name _ value => do
      let i ← translateExpr value
      modifyEnvB (fun env => (name, i) :: env)
      translateStmts fuel rest
    | .ret e => do
      let i ← translateExpr e
      bpure (some i)
    | .assertS e => do
      let i ← translateExpr e
      addOutputB ("assert_" ++ toString i) i
      translateStmts fuel rest
    | .exprS e => do
      let _ ← translateExpr e
      translateStmts fuel rest
    | .ifS c tB eB => do
      let ci ← translateExpr c
      let env0 ← getEnvB
      let rt ← translateStmts fuel tB
      let env1 ← getEnvB
      setEnvB env0
      let re ← match eB with
        | some es => translateStmts fuel es
        | none => bpure none
      let env2 ← getEnvB
      match rt, re with
      | none, none => do
        let merged ← mergeEnvs ci env0 env1 env2
        setEnvB merged
        translateStmts fuel rest
      | _, _ => throwB (.SemanticError "return inside a conditional is not supported")
    | .forS v s e body =>
      match constEvalExpr s, constEvalExpr e with
      | some n1, some n2 => translateStmts fuel (expandFor v body n1 n2 ++ rest)
      | _, _ => throwB (.SemanticError "for-range bounds must be compile-time constants")

/-- Fuel used by `IRGraph.from_ast` for statement translation. -/
def stmtsFuel : Nat := 20000

/-- Input nodes for the parameters of a function or constraint, with names
qualified by the owner's name. -/
def bindParams (qual : String) : List (String × Ty) → B Unit
  | [] => bpure ()
  | (pname, _) :: rest => do
    let i ← newNode (.input (qual ++ "." ++ pname)) []
    modifyEnvB (fun env => (pname, i) :: env)
    bindParams qual rest

/-- Translation of one function: parameters become Input nodes, the body is
translated, and a reached `return` becomes an Output node tagged with the
function's name. -/
def translateFunction (fn : Function) : B Unit := do
  setEnvB []
  bindParams fn.name fn.params
  let r ← translateStmts stmtsFuel fn.body
  match r with
  | some i => do
    let o ← newNode (.output fn.name) [i]
    addOutputB fn.name o
  | none => bpure ()

/-- Translation of one constraint: its boolean root becomes an Output node
tagged with the constraint's name. -/
def translateConstraint (c : Constraint) : B Unit := do
  setEnvB []
  bindParams c.name c.params
  let i ← translateExpr c.body
  let o ← newNode (.output c.name) [i]
  addOutputB c.name o

/-- Translation of all functions in order. -/
def translateFunctions : List Function → B Unit
  | [] => bpure ()
  | fn :: rest => do
    translateFunction fn
    translateFunctions rest

/-- Translation of all constraints in order. -/
def translateConstraints : List Constraint → B Unit
  | [] => bpure ()
  | c :: rest => do
    translateConstraint c
    translateConstraints rest

/-- Modelled from the spec: `IRGraph::from_ast` (section 4.1) — the `ir`
module is missing from the repository sources.  Every function and
constraint is translated into the single merged graph; the declared input
names are those of the Input nodes. -/
def IRGraph.from_ast (p : Program) : Except FCMCError IRGraph :=
  match (bbind (translateFunctions p.functions)
           (fun _ => translateConstraints p.constraints)) ⟨[], 0, [], []⟩ with
  | .ok (_, s) =>
    .ok { nodes := s.nodes,
          inputs := s.nodes.filterMap fun q =>
            match q.2.kind with
            | .input n => some n
            | _ => none,
          outputs := s.outputs }
  | .error e => .error e

/-! ### Backend, verifier and the top-level pipeline (`src/lib.rs`)

The `backend` and `utils::verification` modules are missing from the
repository sources; minimal models follow the spec's words.  The `compile`
method itself is embedded directly from `src/lib.rs`, parameterized over the
five stage functions so that its control flow can be studied for every
possible stage behavior. -/

/-- `TargetSystem` enumeration (initially R1CS; spec 4.3). -/
inductive TargetSystem where
  | R1CS
  deriving DecidableEq

/-- Modelled from the spec: the `CircuitBackend` produced by
`compile_to_target` is missing from the sources; the model keeps only the
observable used by `compile`, the `constraint_count()` of the produced
constraint system. -/
structure CircuitBackend where
  constraint_count : Nat
  deriving DecidableEq

/-- Modelled from the spec: `backend::compile_to_target` is missing from the
sources.  Spec 4.3: for R1CS "every node whose kind is Mul becomes exactly
one constraint row" while additions and constant scalings never allocate a
row; the model therefore counts the Mul and Div nodes (a division row is a
multiplication row by the inverse witness). -/
def compile_to_target (g : IRGraph) (_target : TargetSystem) :
    Except FCMCError CircuitBackend :=
  .ok { constraint_count :=
          (g.nodes.filter fun p => p.2.kind = .mul ∨ p.2.kind = .div).length }

/-- Modelled from the spec: `utils::verification::verify_circuit` is missing
from the sources.  The backend model above retains only the row count, so
the structural check degenerates to accepting every such circuit; the
verifier's contract (spec 4.4) is exercised through the pipeline claims, not
through its internals. -/
def verify_circuit (_c : CircuitBackend) : Except FCMCError Unit := .ok ()

/-- `CompilationStats` of `src/lib.rs`. -/
structure CompilationStats where
  original_nodes : Nat
  optimized_nodes : Nat
  constraint_count : Nat
  deriving DecidableEq

/-- `CompiledCircuit` of `src/lib.rs`. -/
structure CompiledCircuit where
  ir : IRGraph
  circuit : CircuitBackend
  stats : CompilationStats
  deriving DecidableEq

/-- `CompiledCircuit::optimization_ratio()`, with the Rust `f64` arithmetic
modelled exactly over the rationals. -/
def CompiledCircuit.optimization_ratio (c : CompiledCircuit) : ℚ :=
  if 0 < c.stats.original_nodes then
    ((c.stats.original_nodes : ℚ) - (c.stats.optimized_nodes : ℚ)) /
      (c.stats.original_nodes : ℚ) * 100
  else 0

/-- Configuration fields of the `FCMC` struct. -/
structure FCMCConfig where
  optimization_level : Nat
  target_system : TargetSystem
  verify_output : Bool

/-- `FCMC::new()` defaults: level 2, R1CS, verification on. -/
def FCMCConfig.new : FCMCConfig :=
  { optimization_level := 2, target_system := .R1CS, verify_output := true }

/-- The five pipeline stages `compile` invokes, as explicit parameters (their
implementations live in modules missing from the sources). -/
structure Stages where
  parse_source : String → Except FCMCError Program
  from_ast : Program → Except FCMCError IRGraph
  optimize : Nat → IRGraph → Except FCMCError IRGraph
  compile_to_target : IRGraph → TargetSystem → Except FCMCError CircuitBackend
  verify_circuit : CircuitBackend → Except FCMCError Unit

/-- `FCMC::compile` from `src/lib.rs`, line by line: parse, build IR,
optimize when the level is positive, lower to the target, verify when
requested, then assemble the `CompiledCircuit` — with `original_nodes`
hard-coded to `0` exactly as in the source (`original_nodes: 0, // Would be
tracked`). -/
def FCMC.compile (stages : Stages) (cfg : FCMCConfig) (source : String) :
    Except FCMCError CompiledCircuit := do
  let ast ← stages.parse_source source
  let ir0 ← stages.from_ast ast
  let ir ← if 0 < cfg.optimization_level
           then stages.optimize cfg.optimization_level ir0
           else pure ir0
  let circuit ← stages.compile_to_target ir cfg.target_system
  let _ ← if cfg.verify_output then stages.verify_circuit circuit else pure ()
  pure { ir := ir, circuit := circuit,
         stats := { original_nodes := 0,
                    optimized_nodes := ir.node_count,
                    constraint_count := circuit.constraint_count } }

/-! ### Optimization framework

Modelled from the spec (section 4.2): the `optimization` module is missing
from the repository sources.  Passes, least to most aggressive: constant
folding and algebraic identities at level ≥ 1, common-subexpression
elimination and dead-code elimination at level ≥ 2 (DCE last, since other
passes orphan nodes), strength reduction at level ≥ 3.  `optimize` applies
the selected passes in a fixed order until a full cycle changes nothing
(fixed point) or the pass budget is exhausted. -/

/-- Hint lookup for the constant-folding sweep. -/
def findHint : List (Nat × Option F) → Nat → Option F
  | [], _ => none
  | (k, h) :: rest, j => if k = j then h else findHint rest j

/-- Sequencing of operand hints: all present, or nothing. -/
def seqOptions : List (Option F) → Option (List F)
  | [] => some []
  | none :: _ => none
  | some a :: rest => (seqOptions rest).map fun l => a :: l

/-- One constant-folding step: the folded value of a gate whose operand
hints are all known is the evaluated field value (gate semantics applied to
the hint values; Input and Output nodes are never folded); a division by a
statically-known zero is a compile-time `OptimizationError` (spec 4.2). -/
def constStep (k : NodeKind) (args : List (Option F)) : Except FCMCError (Option F) :=
  match k with
  | .input _ => .ok none
  | .output _ => .ok none
  | .constNode v => .ok (some v)
  | .div =>
    match args with
    | [x, some b] =>
      if b = 0 then .error (.OptimizationError "static division by zero")
      else
        match x with
        | some a => .ok (some (a * b⁻¹))
        | none => .ok none
    | _ => .ok none
  | k2 => .ok ((seqOptions args).map (evalKind (fun _ => 0) k2))

/-- Constant-folding sweep in creation order: each node whose operands all
carry hints is replaced by a Constant node holding the evaluated value. -/
def cfGo : List (Nat × Option F) → List (Nat × Node) → Except FCMCError (List (Nat × Node))
  | _, [] => .ok []
  | hints, (i, nd) :: rest =>
    match constStep nd.kind
            (nd.operands.map fun j => if j < i then findHint hints j else none) with
    | .error e => .error e
    | .ok hv =>
      match cfGo ((i, hv) :: hints) rest with
      | .error e => .error e
      | .ok rest' =>
        .ok ((i, match hv with
                 | some v => ⟨.constNode v, []⟩
                 | none => nd) :: rest')

/-- Modelled from the spec: the constant-folding pass (spec 4.2, level ≥ 1).
Outputs and inputs are untouched; only node kinds change. -/
def constFold (g : IRGraph) : Except FCMCError IRGraph :=
  match cfGo [] g.nodes with
  | .ok nds => .ok { g with nodes := nds }
  | .error e => .error e

/-- Constant value of a node, when its kind is a Constant. -/
def kindConst (nodes : List (Nat × Node)) (j : Nat) : Option F :=
  match findNode nodes j with
  | some nd =>
    match nd.kind with
    | .constNode v => some v
    | _ => none
  | none => none

/-- Operand rewiring of a whole arena through an id substitution. -/
def mapRewire (sg : Nat → Nat) (nodes : List (Nat × Node)) : List (Nat × Node) :=
  nodes.map fun p => (p.1, ⟨p.2.kind, p.2.operands.map sg⟩)

/-- Algebraic-identity aliasing: `x+0`, `0+x`, `x*1`, `1*x`, double negation
and constant-condition Select alias to an existing earlier node. -/
def algAlias (nodes : List (Nat × Node)) (nd : Node) : Option Nat :=
  match nd.kind, nd.operands with
  | .add, [a, b] =>
    if kindConst nodes b = some 0 then some a
    else if kindConst nodes a = some 0 then some b
    else none
  | .mul, [a, b] =>
    if kindConst nodes b = some 1 then some a
    else if kindConst nodes a = some 1 then some b
    else none
  | .neg, [a] =>
    match findNode nodes a with
    | some nd2 =>
      match nd2.kind, nd2.operands with
      | .neg, [x] => some x
      | _, _ => none
    | none => none
  | .select, [c, a, b] =>
    match kindConst nodes c with
    | some v => some (if v = 1 then a else b)
    | none => none
  | _, _ => none

/-- The substitution induced by `algAlias` on a graph. -/
def algSigma (nodes : List (Nat × Node)) (i : Nat) : Nat :=
  match findNode nodes i with
  | some nd => (algAlias nodes nd).getD i
  | none => i

/-- In-place rewrite of `x*0` and `0*x` to the constant 0. -/
def algReplace (nodes : List (Nat × Node)) (nd : Node) : Node :=
  match nd.kind, nd.operands with
  | .mul, [a, b] =>
    if kindConst nodes a = some 0 ∨ kindConst nodes b = some 0 then ⟨.constNode 0, []⟩
    else nd
  | _, _ => nd

/-- Modelled from the spec: the algebraic-identities pass (spec 4.2, level
≥ 1): eliminate `x+0`, `x*1`, `x*0 → 0`, double negation, and Select nodes
with a constant condition; consumers and outputs are rewired to the
surviving node. -/
def algebraic (g : IRGraph) : IRGraph :=
  { nodes := mapRewire (algSigma g.nodes) (g.nodes.map fun p => (p.1, algReplace g.nodes p.2)),
    inputs := g.inputs,
    outputs := g.outputs.map fun q => (q.1, algSigma g.nodes q.2) }

/-- Lookup in an id-to-id substitution. -/
def lookupNat : List (Nat × Nat) → Nat → Option Nat
  | [], _ => none
  | (k, v) :: rest, j => if k = j then some v else lookupNat rest j

/-- Total substitution function of a finite substitution (identity outside
its domain). -/
def substApply (subst : List (Nat × Nat)) (i : Nat) : Nat :=
  (lookupNat subst i).getD i

/-- Commutative gate kinds, whose CSE signature sorts the operands. -/
def commKind : NodeKind → Bool
  | .add => true
  | .mul => true
  | .eqk => true
  | _ => false

/-- Canonical sorting of a two-element operand list. -/
def sortPair : List Nat → List Nat
  | [a, b] => if a ≤ b then [a, b] else [b, a]
  | l => l

/-- Structural CSE signature of a node: kind plus rewired operands,
canonically sorted for commutative kinds (spec 4.2). -/
def canonNode (sg : Nat → Nat) (nd : Node) : Node :=
  let ops := nd.operands.map sg
  ⟨nd.kind, if commKind nd.kind then sortPair ops else ops⟩

/-- First id in the seen list carrying the given signature. -/
def findSame : List (Nat × Node) → Node → Option Nat
  | [], _ => none
  | (j, c) :: rest, nd => if c = nd then some j else findSame rest nd

/-- Hash-consing scan: walk the arena in creation order, recording for each
node whose signature was already seen a substitution onto the first carrier
of that signature. -/
def cseScan : List (Nat × Node) → List (Nat × Node) → List (Nat × Nat) → List (Nat × Nat)
  | [], _, subst => subst
  | (i, nd) :: rest, seen, subst =>
    let c := canonNode (substApply subst) nd
    match findSame seen c with
    | some j => cseScan rest seen ((i, j) :: subst)
    | none => cseScan rest (seen ++ [(i, c)]) subst

/-- Compatibility check validating one substitution entry: same kind, and
rewired operand lists equal (or swapped, for a commutative kind). -/
def nodeCompatB (sg : Nat → Nat) (ndI ndJ : Node) : Bool :=
  decide (ndI.kind = ndJ.kind) &&
    (decide (ndI.operands.map sg = ndJ.operands.map sg) ||
     (commKind ndI.kind &&
       match ndI.operands.map sg, ndJ.operands.map sg with
       | [a, b], [c, d] => decide (a = d) && decide (b = c)
       | _, _ => false))

/-- Validation of the whole CSE substitution: every entry maps to a strictly
smaller id outside the substitution domain, and the two nodes are
compatible. -/
def substOkB (subst : List (Nat × Nat)) (nodes : List (Nat × Node)) : Bool :=
  subst.all fun q =>
    decide (q.2 < q.1) && (lookupNat subst q.2).isNone &&
      (match findNode nodes q.1, findNode nodes q.2 with
       | some ndI, some ndJ => nodeCompatB (substApply subst) ndI ndJ
       | _, _ => false)

/-- Modelled from the spec: the common-subexpression-elimination pass (spec
4.2, level ≥ 2): duplicate signatures collapse onto one node and all
consumers (and outputs) are rewired; the scan's substitution is validated
before being applied, an unvalidated substitution leaves the graph
unchanged. -/
def cse (g : IRGraph) : IRGraph :=
  let subst := cseScan g.nodes [] []
  if substOkB subst g.nodes then
    { nodes := (mapRewire (substApply subst) g.nodes).filter
        fun p => (lookupNat subst p.1).isNone,
      inputs := g.inputs,
      outputs := g.outputs.map fun q => (q.1, substApply subst q.2) }
  else g

/-- Backward reachability sweep: the arena is processed in decreasing id
order; a node already known reachable contributes its operands. -/
def markGo : List (Nat × Node) → List Nat → List Nat
  | [], acc => acc
  | (i, nd) :: rest, acc => markGo rest (if i ∈ acc then nd.operands ++ acc else acc)

/-- Modelled from the spec: the dead-code-elimination pass (spec 4.2, level
≥ 2): a backward reachability sweep from all declared Outputs removes every
node not on a path to an output. -/
def dce (g : IRGraph) : IRGraph :=
  let marked := markGo g.nodes.reverse (g.outputs.map Prod.snd)
  { nodes := g.nodes.filter fun p => decide (p.1 ∈ marked),
    inputs := g.inputs,
    outputs := g.outputs }

/-- Strength-reduced form of one node: a multiplication by the constant 2
becomes an addition (additions are free in R1CS, a multiplication row is
not). -/
def strengthNode (nodes : List (Nat × Node)) (nd : Node) : Node :=
  match nd.kind, nd.operands with
  | .mul, [a, b] =>
    if kindConst nodes b = some 2 then ⟨.add, [a, a]⟩
    else if kindConst nodes a = some 2 then ⟨.add, [b, b]⟩
    else nd
  | _, _ => nd

/-- Modelled from the spec: the gate-count-minimization pass (spec 4.2,
level ≥ 3) rewrites expensive primitives into cheaper equivalents. -/
def strength (g : IRGraph) : IRGraph :=
  { g with nodes := g.nodes.map fun p => (p.1, strengthNode g.nodes p.2) }

/-- Identifiers of the optimization passes. -/
inductive PassId where
  | cf
  | alg
  | cseP
  | dceP
  | strengthP
  deriving DecidableEq

/-- Running one pass. -/
def runPass : PassId → IRGraph → Except FCMCError IRGraph
  | .cf, g => constFold g
  | .alg, g => .ok (algebraic g)
  | .cseP, g => .ok (cse g)
  | .dceP, g => .ok (dce g)
  | .strengthP, g => .ok (strength g)

/-- Pass subset selected by an optimization level (spec 4.2), in the fixed
deterministic order; DCE runs after every other pass. -/
def passesFor (level : Nat) : List PassId :=
  if level = 0 then []
  else if level = 1 then [.cf, .alg]
  else if level = 2 then [.cf, .alg, .cseP, .dceP]
  else [.cf, .alg, .cseP, .strengthP, .dceP]

/-- One full pass cycle. -/
def runPasses : List PassId → IRGraph → Except FCMCError IRGraph
  | [], g => .ok g
  | p :: rest, g =>
    match runPass p g with
    | .ok g' => runPasses rest g'
    | .error e => .error e

/-- Pass budget of the fixed-point iteration. -/
def passBudget : Nat := 8

/-- Fixed-point iteration: stop when a full cycle produces no change or the
budget runs out. -/
def optLoop : Nat → List PassId → IRGraph → Except FCMCError IRGraph
  | 0, _, g => .ok g
  | b + 1, ps, g =>
    match runPasses ps g with
    | .ok g' => if g' = g then .ok g else optLoop b ps g'
    | .error e => .error e

/-- Modelled from the spec: `OptimizationFramework::set_level` followed by
`optimize` (spec 4.2). -/
def OptimizationFramework.optimize (level : Nat) (g : IRGraph) :
    Except FCMCError IRGraph :=
  optLoop passBudget (passesFor level) g

/-! ### Concrete stage instances and demonstration inputs -/

instance {ε α : Type} [DecidableEq ε] [DecidableEq α] : DecidableEq (Except ε α) :=
  fun a b =>
    match a, b with
    | .ok x, .ok y =>
      if h : x = y then .isTrue (by rw [h])
      else .isFalse (by intro hc; cases hc; exact h rfl)
    | .error x, .error y =>
      if h : x = y then .isTrue (by rw [h])
      else .isFalse (by intro hc; cases hc; exact h rfl)
    | .ok _, .error _ => .isFalse (by intro hc; cases hc)
    | .error _, .ok _ => .isFalse (by intro hc; cases hc)

/-- Modelled from the spec: the lexer is part of the out-of-scope frontend
(spec section 1) and its module is missing from the sources; this minimal
model classifies whitespace-separated words. -/
def tokenOfWord (wd : String) : Token :=
  let kind :=
    if wd = "fn" then TokenKind.fnK
    else if wd = "constraint" then .constraintK
    else if wd = "struct" then .structK
    else if wd = "let" then .letK
    else if wd = "if" then .ifK
    else if wd = "else" then .elseK
    else if wd = "for" then .forK
    else if wd = "in" then .inK
    else if wd = "return" then .returnK
    else if wd = "assert" then .assertK
    else if wd = "Field" then .fieldK
    else if wd = "Bool" then .boolK
    else if wd = "U32" then .u32K
    else if wd = "(" then .lparen
    else if wd = ")" then .rparen
    else if wd = "\x7b" then .lbrace
    else if wd = "\x7d" then .rbrace
    else if wd = "[" then .lbracket
    else if wd = "]" then .rbracket
    else if wd = ":" then .colon
    else if wd = ";" then .semicolon
    else if wd = "," then .comma
    else if wd = "->" then .arrow
    else if wd = ".." then .rangeK
    else if wd = "==" then .equalsEquals
    else if wd = "!=" then .bangEquals
    else if wd = "=" then .equals
    else if wd = "!" then .bang
    else if wd = "<=" then .lessEquals
    else if wd = "<" then .less
    else if wd = ">=" then .greaterEquals
    else if wd = ">" then .greater
    else if wd = "+" then .plus
    else if wd = "-" then .minus
    else if wd = "*" then .star
    else if wd = "/" then .slash
    else if wd = "%" then .percent
    else if wd.toList ≠ [] ∧ wd.toList.all Char.isDigit then .number
    else .identifier
  ⟨kind, wd⟩

/-- Splitting a character list into whitespace-separated words. -/
def splitWords : List Char → List Char → List String
  | [], acc => if acc = [] then [] else [String.mk acc.reverse]
  | c :: rest, acc =>
    if c = ' ' then
      if acc = [] then splitWords rest []
      else String.mk acc.reverse :: splitWords rest []
    else splitWords rest (c :: acc)

/-- Whitespace tokenization of a source string. -/
def tokenize (src : String) : List Token :=
  (splitWords src.toList []).map tokenOfWord

/-- Parser fuel used by the concrete `parse_source` stage. -/
def parserFuel : Nat := 256

/-- Modelled from the spec: `frontend::parse_source` (re-exported by
`src/lib.rs`) is missing from the sources; the model tokenizes and runs the
embedded `Parser::parse_program`. -/
def parse_source (source : String) : Except FCMCError Program :=
  match parseProgram parserFuel (initPState (tokenize source)) with
  | .ok p _ => .ok p
  | .err e => .error e
  | .panicOOB => .error (.ParseError "parser panicked")
  | .fuelOut => .error (.ParseError "parser fuel exhausted")

/-- The concrete pipeline stages of this development. -/
def specStages : Stages :=
  { parse_source := parse_source,
    from_ast := IRGraph.from_ast,
    optimize := OptimizationFramework.optimize,
    compile_to_target := compile_to_target,
    verify_circuit := verify_circuit }

/-- Demonstration source program (the spec's own level-1 folding scenario,
section 8). -/
def demoSource : String :=
  "fn main ( x : Field ) -> Field \x7b let y = x * 1 + 0 ; return y ; \x7d"

/-- The AST of `demoSource` as the embedded parser produces it. -/
def demoAst : Program :=
  { functions := [
      { name := "main", params := [("x", Ty.field)], return_type := Ty.field,
        body := [
          Statement.letS "y" none
            (.binary (.binary (.var "x") .mul (.lit (.number "1"))) .add
                     (.lit (.number "0"))),
          Statement.ret (.var "y")
        ],
        is_public := true }],
    constraints := [],
    entry_point := "main" }

/-- The IR graph `IRGraph.from_ast` builds for `demoAst`. -/
def demoG : IRGraph :=
  { nodes := [(0, ⟨.input "main.x", []⟩), (1, ⟨.constNode 1, []⟩),
              (2, ⟨.mul, [0, 1]⟩), (3, ⟨.constNode 0, []⟩),
              (4, ⟨.add, [2, 3]⟩), (5, ⟨.output "main", [4]⟩)],
    inputs := ["main.x"],
    outputs := [("main", 5)] }

/-- A concrete witness assignment for the demonstration graph. -/
def demoW : String → F := fun n => if n = "main.x" then 7 else 0

/-- Token stream ending in a unary minus: `constraint c ( ) { -`. -/
def c8tokens : List Token :=
  [⟨.constraintK, "constraint"⟩, ⟨.identifier, "c"⟩, ⟨.lparen, "("⟩,
   ⟨.rparen, ")"⟩, ⟨.lbrace, "\x7b"⟩, ⟨.minus, "-"⟩]

/-- Token stream of an array type annotation whose size literal exceeds the
usize range: `Field [ 99999999999999999999999999 ]`. -/
def c9tokens : List Token :=
  [⟨.identifier, "Field"⟩, ⟨.lbracket, "["⟩,
   ⟨.number, "99999999999999999999999999"⟩, ⟨.rbracket, "]"⟩]

/-- Modelled from the spec: pipeline stages with the frontend at the spec's
declared boundary — lexing and parsing are external collaborators "assumed
to hand the core a validated AST" (spec sections 1 and 6), so this stage set
hands the core the validated AST of `demoSource` directly; the remaining
four stages are the concrete models of this development. -/
def demoStages : Stages :=
  { parse_source := fun src =>
      if src = demoSource then .ok demoAst
      else .error (.ParseError "Unexpected token at program level"),
    from_ast := IRGraph.from_ast,
    optimize := OptimizationFramework.optimize,
    compile_to_target := compile_to_target,
    verify_circuit := verify_circuit }

/-- The optimized form of `demoG` at levels 2 and 3: a single Output node
aliasing the Input node. -/
def demoGopt : IRGraph :=
  { nodes := [(0, ⟨.input "main.x", []⟩), (5, ⟨.output "main", [0]⟩)],
    inputs := ["main.x"],
    outputs := [("main", 5)] }

/-- Builder-state invariant carried through IR construction: arena keys are
strictly increasing, every key is below the next fresh id, and every node's
operands strictly precede it. -/
def BInv (s : BState) : Prop :=
  SortedN s.nodes ∧ (∀ p ∈ s.nodes, p.1 < s.next) ∧ AcyclicN s.nodes

/-- A builder computation preserves the builder-state invariant. -/
def BPres {α : Type} (m : B α) : Prop :=
  ∀ s a s2, BInv s → m s = .ok (a, s2) → BInv s2

/-! ## Theorems -/

theorem bindP_eq {α β : Type} (m : ParserM α) (f : α → ParserM β) :
    Bind.bind m f = pbind m f := rfl

theorem pureP_eq {α : Type} (a : α) : (Pure.pure a : ParserM α) = ppure a := rfl

theorem pbind_ok {α β : Type} {m : ParserM α} {f : α → ParserM β} {s : PState}
    {b : β} {s2 : PState} :
    pbind m f s = .ok b s2 ↔ ∃ a s1, m s = .ok a s1 ∧ f a s1 = .ok b s2 := by
  unfold pbind
  cases hm : m s with
  | ok a s1 =>
    constructor
    · intro h
      exact ⟨a, s1, rfl, h⟩
    · rintro ⟨a2, s3, h1, h2⟩
      injection h1 with ha hs
      rw [← ha, ← hs] at h2
      exact h2
  | err e =>
    constructor
    · intro h
      cases h
    · rintro ⟨a2, s3, h1, h2⟩
      cases h1
  | panicOOB =>
    constructor
    · intro h
      cases h
    · rintro ⟨a2, s3, h1, h2⟩
      cases h1
  | fuelOut =>
    constructor
    · intro h
      cases h
    · rintro ⟨a2, s3, h1, h2⟩
      cases h1

theorem fnBody_is_public (p : PPack) (s : PState) (f : Function) (s2 : PState)
    (h : fnBody p s = .ok f s2) : f.is_public = (f.name == "main") := by
  unfold fnBody at h
  simp only [bindP_eq] at h
  obtain ⟨t1, s1, h1, h⟩ := pbind_ok.mp h
  obtain ⟨no, sb, h2, h⟩ := pbind_ok.mp h
  cases no with
  | none => simp [perrM] at h
  | some name =>
    obtain ⟨t2, s3, h3, h⟩ := pbind_ok.mp h
    obtain ⟨cr, s4, h4, h⟩ := pbind_ok.mp h
    obtain ⟨params, s5, h5, h⟩ := pbind_ok.mp h
    obtain ⟨t3, s6, h6, h⟩ := pbind_ok.mp h
    obtain ⟨ca, s7, h7, h⟩ := pbind_ok.mp h
    obtain ⟨rt, s8, h8, h⟩ := pbind_ok.mp h
    obtain ⟨t4, s9, h9, h⟩ := pbind_ok.mp h
    obtain ⟨body, s10, h10, h⟩ := pbind_ok.mp h
    obtain ⟨t5, s11, h11, h⟩ := pbind_ok.mp h
    simp only [ppure] at h
    injection h with hf hs
    rw [← hf]

theorem parsersAt_fnP_is_public (n : Nat) (s : PState) (f : Function) (s2 : PState)
    (h : (parsersAt n).fnP s = .ok f s2) : f.is_public = (f.name == "main") := by
  cases n with
  | zero => simp [parsersAt, pfuel] at h
  | succ m =>
    exact fnBody_is_public (parsersAt m) s f s2 (by simpa [parsersAt] using h)

theorem loop_functions_public (fuel : Nat) :
    ∀ s fs cs s2, parseProgramLoop fuel s = .ok (fs, cs) s2 →
      ∀ f ∈ fs, f.is_public = (f.name == "main") := by
  induction fuel with
  | zero =>
    intro s fs cs s2 h
    simp [parseProgramLoop, pfuel] at h
  | succ n ih =>
    intro s fs cs s2 h
    unfold parseProgramLoop at h
    simp only [bindP_eq] at h
    obtain ⟨e, s1, h1, h⟩ := pbind_ok.mp h
    cases e with
    | true =>
      rw [if_pos rfl] at h
      simp only [ppure] at h
      injection h with hv hs
      injection hv with hfs hcs
      subst hfs
      intro f hf
      cases hf
    | false =>
      rw [if_neg Bool.false_ne_true] at h
      obtain ⟨t, sb, h2, h⟩ := pbind_ok.mp h
      by_cases hfn : t.kind = TokenKind.fnK
      · rw [if_pos hfn] at h
        obtain ⟨f1, s3, h3, h⟩ := pbind_ok.mp h
        obtain ⟨rest, s4, h4, h⟩ := pbind_ok.mp h
        obtain ⟨fs4, cs4⟩ := rest
        simp only [ppure] at h
        injection h with hv hs
        injection hv with hfs hcs
        subst hfs
        intro f hf
        cases hf with
        | head => exact parsersAt_fnP_is_public n sb f1 s3 h3
        | tail _ hmem => exact ih s3 fs4 cs4 s4 h4 f hmem
      · rw [if_neg hfn] at h
        by_cases hck : t.kind = TokenKind.constraintK
        · rw [if_pos hck] at h
          obtain ⟨c1, s3, h3, h⟩ := pbind_ok.mp h
          obtain ⟨rest, s4, h4, h⟩ := pbind_ok.mp h
          obtain ⟨fs4, cs4⟩ := rest
          simp only [ppure] at h
          injection h with hv hs
          injection hv with hfs hcs
          subst hfs
          exact ih s3 fs4 cs4 s4 h4
        · rw [if_neg hck] at h
          by_cases hst : t.kind = TokenKind.structK
          · rw [if_pos hst] at h
            obtain ⟨u, s3, h3, h⟩ := pbind_ok.mp h
            exact ih s3 fs cs s2 h
          · rw [if_neg hst] at h
            simp [perrM] at h

/-- C10: for every program successfully returned by `Parser::parse_program`,
`entry_point` is the string "main" regardless of whether a function named
main was parsed, and a parsed `Function` has `is_public = true` exactly when
its name is "main". -/
theorem c10_entry_point_and_is_public (fuel : Nat) (s : PState) (prog : Program)
    (s2 : PState) (h : parseProgram fuel s = .ok prog s2) :
    prog.entry_point = "main" ∧
      ∀ f ∈ prog.functions, (f.is_public = true ↔ f.name = "main") := by
  unfold parseProgram at h
  simp only [bindP_eq] at h
  obtain ⟨fc, s1, h1, h⟩ := pbind_ok.mp h
  obtain ⟨fs, cs⟩ := fc
  simp only [ppure] at h
  injection h with hv hs
  subst hv
  refine ⟨rfl, ?_⟩
  intro f hf
  have hpub := loop_functions_public fuel s fs cs s1 h1 f hf
  rw [hpub]
  exact beq_iff_eq

/-- Witness for C10: the empty token stream parses to the empty program with
entry point "main" (whose function list satisfies the publicity property
vacuously). -/
theorem c10_witness :
    ({ functions := [], constraints := [], entry_point := "main" } : Program).entry_point
        = "main" ∧
      ∀ f ∈ ({ functions := [], constraints := [], entry_point := "main" } :
          Program).functions, (f.is_public = true ↔ f.name = "main") :=
  c10_entry_point_and_is_public 1 (initPState [])
    { functions := [], constraints := [], entry_point := "main" }
    (initPState []) rfl

/-- C8: there is a finite token stream on which `Parser::parse_program`
panics with an out-of-bounds index instead of returning a ParseError:
`constraint c ( ) { -` ends in a unary minus, `parse_unary` consumes it and
recurses, and the recursive call reaches `parse_primary`, whose unguarded
`peek` indexes one past the end of the token vector. -/
theorem c8_parser_panic : parseProgram 64 (initPState c8tokens) = .panicOOB := rfl

/-- C9: when `Parser::parse_type` parses an array type annotation whose size
literal does not parse as a usize, the size defaults to 0 through
`unwrap_or(0)`: the result is `Array(element_type, 0)` and no ParseError or
TypeError is raised.  Stated for every lexeme that fails usize parsing, over
the annotation `Field [ <lexeme> ]`. -/
theorem c9_array_size_default (lex : String) (sym : List (String × Ty))
    (hfail : rustParseUsize lex = none) :
    (parsersAt 16).typeP
      { tokens := [⟨.identifier, "Field"⟩, ⟨.lbracket, "["⟩, ⟨.number, lex⟩,
                   ⟨.rbracket, "]"⟩],
        position := 0, symbol_table := sym } =
      .ok (Ty.array .field 0)
        { tokens := [⟨.identifier, "Field"⟩, ⟨.lbracket, "["⟩, ⟨.number, lex⟩,
                     ⟨.rbracket, "]"⟩],
          position := 4, symbol_table := sym } := by
  have base : (parsersAt 16).typeP
      { tokens := [⟨.identifier, "Field"⟩, ⟨.lbracket, "["⟩, ⟨.number, lex⟩,
                   ⟨.rbracket, "]"⟩],
        position := 0, symbol_table := sym } =
      .ok (Ty.array .field ((rustParseUsize lex).getD 0))
        { tokens := [⟨.identifier, "Field"⟩, ⟨.lbracket, "["⟩, ⟨.number, lex⟩,
                     ⟨.rbracket, "]"⟩],
          position := 4, symbol_table := sym } := rfl
  rw [base, hfail]
  rfl

/-- Witness for C9: the 26-digit literal `99999999999999999999999999` exceeds
the usize range, and `parse_type` returns `Array(Field, 0)` for it. -/
theorem c9_array_size_default_witness :
    (parsersAt 16).typeP (initPState c9tokens) =
      .ok (Ty.array .field 0)
        { tokens := c9tokens, position := 4, symbol_table := [] } :=
  c9_array_size_default "99999999999999999999999999" [] (by decide)

theorem except_bind_def {ε α β : Type} (m : Except ε α) (f : α → Except ε β) :
    Bind.bind m f = m.bind f := rfl

theorem except_pure_def {ε α : Type} (a : α) :
    (Pure.pure a : Except ε α) = .ok a := rfl

theorem compile_bind_eq (stages : Stages) (cfg : FCMCConfig) (source : String) :
    FCMC.compile stages cfg source =
      (stages.parse_source source).bind fun ast =>
        (stages.from_ast ast).bind fun ir0 =>
          (if 0 < cfg.optimization_level
           then stages.optimize cfg.optimization_level ir0
           else .ok ir0).bind fun ir =>
            (stages.compile_to_target ir cfg.target_system).bind fun circuit =>
              (if cfg.verify_output then stages.verify_circuit circuit
               else .ok ()).bind fun _ =>
                .ok { ir := ir, circuit := circuit,
                      stats := { original_nodes := 0,
                                 optimized_nodes := ir.node_count,
                                 constraint_count := circuit.constraint_count } } := by
  by_cases h1 : 0 < cfg.optimization_level <;> by_cases h2 : cfg.verify_output = true <;>
    simp [FCMC.compile, except_bind_def, except_pure_def, h1, h2]

theorem except_bind_ok {ε α β : Type} {m : Except ε α} {f : α → Except ε β} {b : β} :
    m.bind f = .ok b ↔ ∃ a, m = .ok a ∧ f a = .ok b := by
  cases m with
  | ok a => simp [Except.bind]
  | error e => simp [Except.bind]

/-- C7: `FCMC::compile` applies the stages in this exact order, each stage
consuming only the previous stage's output: `parse_source` on the source
text, `IRGraph::from_ast` on the AST, then (only when the optimization
level is positive) `optimize` on the IR graph, then `compile_to_target` on
the resulting graph, then (when `verify_output`) `verify_circuit` on the
backend circuit. -/
theorem c7_pipeline_order (stages : Stages) (cfg : FCMCConfig) (source : String) :
    FCMC.compile stages cfg source =
      (stages.parse_source source).bind fun ast =>
        (stages.from_ast ast).bind fun ir0 =>
          (if 0 < cfg.optimization_level
           then stages.optimize cfg.optimization_level ir0
           else .ok ir0).bind fun ir =>
            (stages.compile_to_target ir cfg.target_system).bind fun circuit =>
              (if cfg.verify_output then stages.verify_circuit circuit
               else .ok ()).bind fun _ =>
                .ok { ir := ir, circuit := circuit,
                      stats := { original_nodes := 0,
                                 optimized_nodes := ir.node_count,
                                 constraint_count := circuit.constraint_count } } :=
  compile_bind_eq stages cfg source

/-- C5: `optimization_ratio()` returns
`(original_nodes - optimized_nodes) / original_nodes * 100` when
`original_nodes > 0` and exactly 0 when `original_nodes = 0` (the `f64`
arithmetic is modelled over the rationals). -/
theorem c5_optimization_ratio_eq (c : CompiledCircuit) :
    (0 < c.stats.original_nodes →
      c.optimization_ratio =
        ((c.stats.original_nodes : ℚ) - (c.stats.optimized_nodes : ℚ)) /
          (c.stats.original_nodes : ℚ) * 100) ∧
    (c.stats.original_nodes = 0 → c.optimization_ratio = 0) := by
  constructor
  · intro h
    unfold CompiledCircuit.optimization_ratio
    rw [if_pos h]
  · intro h
    unfold CompiledCircuit.optimization_ratio
    rw [if_neg (by omega)]

/-- Witness for C5: a circuit with 4 original and 1 optimized nodes has
ratio 75. -/
theorem c5_optimization_ratio_witness :
    ({ ir := demoGopt, circuit := ⟨0⟩, stats := ⟨4, 1, 0⟩ } :
      CompiledCircuit).optimization_ratio = 75 := by
  have h := (c5_optimization_ratio_eq
    { ir := demoGopt, circuit := ⟨0⟩, stats := ⟨4, 1, 0⟩ }).1 (by norm_num)
  rw [h]
  norm_num

/-- C6: `FCMC::compile` fails fast — whichever stage returns an error first,
`compile` returns exactly that error (for every behavior of the remaining
stages, which therefore cannot influence the result). -/
theorem c6_fail_fast (stages : Stages) (cfg : FCMCConfig) (source : String) :
    (∀ e, stages.parse_source source = .error e →
      FCMC.compile stages cfg source = .error e) ∧
    (∀ ast e, stages.parse_source source = .ok ast →
      stages.from_ast ast = .error e →
      FCMC.compile stages cfg source = .error e) ∧
    (∀ ast ir0 e, stages.parse_source source = .ok ast →
      stages.from_ast ast = .ok ir0 →
      0 < cfg.optimization_level →
      stages.optimize cfg.optimization_level ir0 = .error e →
      FCMC.compile stages cfg source = .error e) ∧
    (∀ ast ir0 ir e, stages.parse_source source = .ok ast →
      stages.from_ast ast = .ok ir0 →
      (if 0 < cfg.optimization_level
       then stages.optimize cfg.optimization_level ir0
       else .ok ir0) = .ok ir →
      stages.compile_to_target ir cfg.target_system = .error e →
      FCMC.compile stages cfg source = .error e) ∧
    (∀ ast ir0 ir circuit e, stages.parse_source source = .ok ast →
      stages.from_ast ast = .ok ir0 →
      (if 0 < cfg.optimization_level
       then stages.optimize cfg.optimization_level ir0
       else .ok ir0) = .ok ir →
      stages.compile_to_target ir cfg.target_system = .ok circuit →
      cfg.verify_output = true →
      stages.verify_circuit circuit = .error e →
      FCMC.compile stages cfg source = .error e) := by
  refine ⟨?_, ?_, ?_, ?_, ?_⟩
  · intro e he
    simp [compile_bind_eq, he, Except.bind]
  · intro ast e hp hf
    simp [compile_bind_eq, hp, hf, Except.bind]
  · intro ast ir0 e hp hf hl ho
    simp [compile_bind_eq, hp, hf, hl, ho, Except.bind]
  · intro ast ir0 ir e hp hf ho hb
    simp [compile_bind_eq, hp, hf, ho, hb, Except.bind]
  · intro ast ir0 ir circuit e hp hf ho hb hv hverr
    simp [compile_bind_eq, hp, hf, ho, hb, hv, hverr, Except.bind]

/-- Witness for C6: with a parse stage that fails on a concrete error, the
pipeline returns exactly that error. -/
theorem c6_fail_fast_witness :
    FCMC.compile
      { demoStages with parse_source := fun _ => .error (.ParseError "boom") }
      FCMCConfig.new "x" = .error (.ParseError "boom") :=
  (c6_fail_fast
    { demoStages with parse_source := fun _ => .error (.ParseError "boom") }
    FCMCConfig.new "x").1 (.ParseError "boom") rfl

/-- C2: when `verify_output` is requested, `compile` returns a successful
`CompiledCircuit` only if `verify_circuit` succeeded on the compiled
circuit, and a verification failure is returned as that error with no
circuit — verification is never silently skipped. -/
theorem c2_verification_gate (stages : Stages) (cfg : FCMCConfig) (source : String)
    (hv : cfg.verify_output = true) :
    (∀ cc, FCMC.compile stages cfg source = .ok cc →
      stages.verify_circuit cc.circuit = .ok ()) ∧
    (∀ ast ir0 ir circuit e, stages.parse_source source = .ok ast →
      stages.from_ast ast = .ok ir0 →
      (if 0 < cfg.optimization_level
       then stages.optimize cfg.optimization_level ir0
       else .ok ir0) = .ok ir →
      stages.compile_to_target ir cfg.target_system = .ok circuit →
      stages.verify_circuit circuit = .error e →
      FCMC.compile stages cfg source = .error e) := by
  constructor
  · intro cc h
    rw [compile_bind_eq] at h
    obtain ⟨ast, hp, h⟩ := except_bind_ok.mp h
    obtain ⟨ir0, hf, h⟩ := except_bind_ok.mp h
    obtain ⟨ir, ho, h⟩ := except_bind_ok.mp h
    obtain ⟨circuit, hb, h⟩ := except_bind_ok.mp h
    obtain ⟨u, hvr, h⟩ := except_bind_ok.mp h
    injection h with hcc
    rw [← hcc]
    rw [hv, if_pos rfl] at hvr
    cases u
    exact hvr
  · intro ast ir0 ir circuit e hp hf ho hb hverr
    simp [compile_bind_eq, hp, hf, ho, hb, hv, hverr, Except.bind]

set_option maxHeartbeats 4000000 in
theorem compile_demo_eq :
    FCMC.compile demoStages FCMCConfig.new demoSource =
      .ok { ir := demoGopt, circuit := ⟨0⟩, stats := ⟨0, 2, 0⟩ } := by decide

/-- Witness for C2: with the default configuration (verification on) and the
demonstration stages, the verifier accepted the circuit of the successful
compilation. -/
theorem c2_verification_gate_witness :
    demoStages.verify_circuit
      ({ ir := demoGopt, circuit := ⟨0⟩, stats := ⟨0, 2, 0⟩ } :
        CompiledCircuit).circuit = .ok () :=
  (c2_verification_gate demoStages FCMCConfig.new demoSource rfl).1
    { ir := demoGopt, circuit := ⟨0⟩, stats := ⟨0, 2, 0⟩ } compile_demo_eq

/-- C1 (code bug): the spec requires `optimized_nodes ≤ original_nodes` for
every returned `CompiledCircuit`, but `compile` hard-codes
`original_nodes: 0` (its own comment says "Would be tracked"), so any
successful compilation with a non-empty graph violates the bound; the demo
program compiles to stats with `original_nodes = 0 < 2 = optimized_nodes`. -/
theorem c1_stats_bug :
    ∃ cc, FCMC.compile demoStages FCMCConfig.new demoSource = .ok cc ∧
      cc.stats.original_nodes < cc.stats.optimized_nodes :=
  ⟨{ ir := demoGopt, circuit := ⟨0⟩, stats := ⟨0, 2, 0⟩ },
   compile_demo_eq, by norm_num⟩

/-! ### Evaluation kit -/

theorem evalNodeF_congr (nodes : List (Nat × Node)) (w : String → F) :
    ∀ i fuel fuel2, i < fuel → i < fuel2 →
      evalNodeF nodes w fuel i = evalNodeF nodes w fuel2 i := by
  intro i
  induction i using Nat.strong_induction_on with
  | _ i ih =>
    intro fuel fuel2 hf hf2
    cases fuel with
    | zero => omega
    | succ f =>
      cases fuel2 with
      | zero => omega
      | succ f2 =>
        simp only [evalNodeF]
        cases hfind : findNode nodes i with
        | none => rfl
        | some nd =>
          show evalKind w nd.kind
              (nd.operands.map fun j => if j < i then evalNodeF nodes w f j else 0)
            = evalKind w nd.kind
              (nd.operands.map fun j => if j < i then evalNodeF nodes w f2 j else 0)
          apply congrArg
          apply List.map_congr_left
          intro j hj
          by_cases hji : j < i
          · simp only [if_pos hji]
            exact ih j hji f f2 (by omega) (by omega)
          · simp [hji]

theorem evalNode_eq (nodes : List (Nat × Node)) (w : String → F) (i : Nat) :
    evalNode nodes w i =
      evalWith w nodes (fun j => if j < i then evalNode nodes w j else 0) i := by
  unfold evalNode evalWith
  simp only [evalNodeF]
  cases hfind : findNode nodes i with
  | none => rfl
  | some nd =>
    show evalKind w nd.kind
        (nd.operands.map fun j => if j < i then evalNodeF nodes w i j else 0)
      = evalKind w nd.kind
        (nd.operands.map fun j => if j < i then evalNode nodes w j else 0)
    apply congrArg
    apply List.map_congr_left
    intro j hj
    by_cases hji : j < i
    · simp only [if_pos hji]
      exact evalNodeF_congr nodes w j i (j + 1) hji (by omega)
    · simp [hji]

theorem eval_congr (w : String → F) (nodes nodes2 : List (Nat × Node))
    (H : ∀ i, evalWith w nodes2 (fun j => if j < i then evalNode nodes w j else 0) i
       = evalNode nodes w i) :
    ∀ i, evalNode nodes2 w i = evalNode nodes w i := by
  intro i
  induction i using Nat.strong_induction_on with
  | _ i ih =>
    rw [evalNode_eq]
    have hrec : (fun j => if j < i then evalNode nodes2 w j else 0)
        = (fun j => if j < i then evalNode nodes w j else 0) := by
      funext j
      by_cases hj : j < i
      · simp [hj, ih j hj]
      · simp [hj]
    rw [hrec, H i]

theorem eval_sub (w : String → F) (nodes nodes2 : List (Nat × Node)) (S : Nat → Prop)
    (Hfind : ∀ i, S i → findNode nodes2 i = findNode nodes i)
    (Hcl : ∀ i nd, S i → findNode nodes i = some nd → ∀ j ∈ nd.operands, S j) :
    ∀ i, S i → evalNode nodes2 w i = evalNode nodes w i := by
  intro i
  induction i using Nat.strong_induction_on with
  | _ i ih =>
    intro hS
    rw [evalNode_eq, evalNode_eq]
    unfold evalWith
    rw [Hfind i hS]
    cases hfind : findNode nodes i with
    | none => rfl
    | some nd =>
      show evalKind w nd.kind
          (nd.operands.map fun j => if j < i then evalNode nodes2 w j else 0)
        = evalKind w nd.kind
          (nd.operands.map fun j => if j < i then evalNode nodes w j else 0)
      apply congrArg
      apply List.map_congr_left
      intro j hj
      by_cases hji : j < i
      · simp only [if_pos hji]
        exact ih j hji (Hcl i nd hS hfind j hj)
      · simp [hji]

theorem findNode_map (f : Node → Node) (nodes : List (Nat × Node)) (i : Nat) :
    findNode (nodes.map fun p => (p.1, f p.2)) i = (findNode nodes i).map f := by
  induction nodes with
  | nil => rfl
  | cons p rest ih =>
    obtain ⟨k, nd⟩ := p
    simp only [List.map_cons, findNode]
    by_cases hk : k = i
    · simp [hk]
    · simp [hk, ih]

theorem findNode_mapRewire (sg : Nat → Nat) (nodes : List (Nat × Node)) (i : Nat) :
    findNode (mapRewire sg nodes) i =
      (findNode nodes i).map fun nd => ⟨nd.kind, nd.operands.map sg⟩ := by
  unfold mapRewire
  exact findNode_map (fun nd => ⟨nd.kind, nd.operands.map sg⟩) nodes i

theorem findNode_filter (pr : Nat × Node → Bool) (nodes : List (Nat × Node)) (i : Nat)
    (hpr : ∀ nd, pr (i, nd) = true) :
    findNode (nodes.filter pr) i = findNode nodes i := by
  induction nodes with
  | nil => rfl
  | cons p rest ih =>
    obtain ⟨k, nd⟩ := p
    by_cases hk : k = i
    · subst hk
      rw [List.filter_cons, hpr nd]
      simp [findNode]
    · rw [List.filter_cons]
      cases hp : pr (k, nd) with
      | false =>
        simp only [Bool.false_eq_true, if_false]
        rw [ih, findNode, if_neg hk]
      | true =>
        rw [if_pos rfl, findNode, findNode, if_neg hk, if_neg hk, ih]

theorem mem_findNode {nodes : List (Nat × Node)} {i : Nat} {nd : Node}
    (h : findNode nodes i = some nd) : (i, nd) ∈ nodes := by
  induction nodes with
  | nil => cases h
  | cons p rest ih =>
    obtain ⟨k, nd2⟩ := p
    rw [findNode] at h
    by_cases hk : k = i
    · rw [if_pos hk] at h
      injection h with hnd
      subst hk hnd
      exact List.mem_cons_self _ _
    · rw [if_neg hk] at h
      exact List.mem_cons_of_mem _ (ih h)

theorem findNode_mem {nodes : List (Nat × Node)} (hS : SortedN nodes) {i : Nat}
    {nd : Node} (h : (i, nd) ∈ nodes) : findNode nodes i = some nd := by
  induction nodes with
  | nil => cases h
  | cons p rest ih =>
    obtain ⟨k, nd2⟩ := p
    rw [findNode]
    cases h with
    | head => simp
    | tail _ hmem =>
      have hklt : k < i := by
        have := (List.pairwise_cons.mp hS).1 (i, nd) hmem
        exact this
      rw [if_neg (by omega)]
      exact ih (List.pairwise_cons.mp hS).2 hmem

theorem kindConst_eval {nodes : List (Nat × Node)} {j : Nat} {v : F}
    (h : kindConst nodes j = some v) (w : String → F) :
    evalNode nodes w j = v := by
  unfold kindConst at h
  cases hf : findNode nodes j with
  | none => rw [hf] at h; cases h
  | some nd =>
    obtain ⟨kk, ops⟩ := nd
    rw [hf] at h
    rw [evalNode_eq]
    unfold evalWith
    rw [hf]
    show evalKind w kk
        (ops.map fun j2 => if j2 < j then evalNode nodes w j2 else 0) = v
    cases kk <;> cases h <;> rfl


theorem evalNode_some {nodes : List (Nat × Node)} {w : String → F} {i : Nat}
    {nd : Node} (hf : findNode nodes i = some nd) :
    evalNode nodes w i =
      evalKind w nd.kind
        (nd.operands.map fun j => if j < i then evalNode nodes w j else 0) := by
  rw [evalNode_eq]
  unfold evalWith
  rw [hf]

theorem evalNode_none {nodes : List (Nat × Node)} {w : String → F} {i : Nat}
    (hf : findNode nodes i = none) : evalNode nodes w i = 0 := by
  rw [evalNode_eq]
  unfold evalWith
  rw [hf]

/-! ### Algebraic-identities pass -/

theorem algSigma_le {nodes : List (Nat × Node)} (hA : AcyclicN nodes) (i : Nat) :
    algSigma nodes i ≤ i := by
  unfold algSigma
  cases hf : findNode nodes i with
  | none => exact Nat.le_refl i
  | some nd =>
    show (algAlias nodes nd).getD i ≤ i
    cases ha : algAlias nodes nd with
    | none => exact Nat.le_refl i
    | some a =>
      show a ≤ i
      have hops : ∀ j ∈ nd.operands, j < i := fun j hj => hA (i, nd) (mem_findNode hf) j hj
      obtain ⟨kk, ops⟩ := nd
      unfold algAlias at ha
      cases kk <;> try cases ha
      case add =>
        rcases ops with _ | ⟨a1, _ | ⟨a2, _ | ⟨a3, tl⟩⟩⟩ <;> try cases ha
        dsimp only [] at ha
        split_ifs at ha
        · injection ha with hae
          have h1 := hops a1 (by simp)
          omega
        · injection ha with hae
          have h2 := hops a2 (by simp)
          omega
      case mul =>
        rcases ops with _ | ⟨a1, _ | ⟨a2, _ | ⟨a3, tl⟩⟩⟩ <;> try cases ha
        dsimp only [] at ha
        split_ifs at ha
        · injection ha with hae
          have h1 := hops a1 (by simp)
          omega
        · injection ha with hae
          have h2 := hops a2 (by simp)
          omega
      case neg =>
        rcases ops with _ | ⟨a1, _ | ⟨a2, tl⟩⟩ <;> try cases ha
        dsimp only [] at ha
        cases hf2 : findNode nodes a1 with
        | none => rw [hf2] at ha; cases ha
        | some nd2 =>
          rw [hf2] at ha
          obtain ⟨kk2, ops2⟩ := nd2
          cases kk2 <;> try cases ha
          case neg =>
            rcases ops2 with _ | ⟨x, _ | ⟨y, tl2⟩⟩
            · cases ha
            · injection ha with hae
              have hx : x < a1 := hA (a1, ⟨.neg, [x]⟩) (mem_findNode hf2) x (by simp)
              have ha1 : a1 < i := hops a1 (by simp)
              omega
            · cases ha
      case select =>
        rcases ops with _ | ⟨c, _ | ⟨a1, _ | ⟨a2, _ | ⟨a3, tl⟩⟩⟩⟩ <;> try cases ha
        dsimp only [] at ha
        cases hkc : kindConst nodes c with
        | none => rw [hkc] at ha; cases ha
        | some v =>
          rw [hkc] at ha
          injection ha with hae
          subst hae
          by_cases hv : v = 1
          · rw [if_pos hv]
            exact Nat.le_of_lt (hops a1 (by simp))
          · rw [if_neg hv]
            exact Nat.le_of_lt (hops a2 (by simp))

theorem algSigma_eval {nodes : List (Nat × Node)} (hA : AcyclicN nodes)
    (w : String → F) (i : Nat) :
    evalNode nodes w (algSigma nodes i) = evalNode nodes w i := by
  unfold algSigma
  cases hf : findNode nodes i with
  | none => rfl
  | some nd =>
    show evalNode nodes w ((algAlias nodes nd).getD i) = evalNode nodes w i
    cases ha : algAlias nodes nd with
    | none => rfl
    | some a =>
      show evalNode nodes w a = evalNode nodes w i
      have hops : ∀ j ∈ nd.operands, j < i := fun j hj => hA (i, nd) (mem_findNode hf) j hj
      rw [evalNode_some hf]
      obtain ⟨kk, ops⟩ := nd
      unfold algAlias at ha
      dsimp only [] at hops ⊢
      cases kk <;> try cases ha
      case add =>
        rcases ops with _ | ⟨a1, _ | ⟨a2, _ | ⟨a3, tl⟩⟩⟩ <;> try cases ha
        dsimp only [] at ha
        have h1 : a1 < i := hops a1 (by simp)
        have h2 : a2 < i := hops a2 (by simp)
        split_ifs at ha with hc1 hc2
        · injection ha with hae
          subst hae
          simp only [List.map_cons, List.map_nil, if_pos h1, if_pos h2]
          show evalNode nodes w a1 = evalNode nodes w a1 + evalNode nodes w a2
          rw [kindConst_eval hc1 w, add_zero]
        · injection ha with hae
          subst hae
          simp only [List.map_cons, List.map_nil, if_pos h1, if_pos h2]
          show evalNode nodes w a2 = evalNode nodes w a1 + evalNode nodes w a2
          rw [kindConst_eval hc2 w, zero_add]
      case mul =>
        rcases ops with _ | ⟨a1, _ | ⟨a2, _ | ⟨a3, tl⟩⟩⟩ <;> try cases ha
        dsimp only [] at ha
        have h1 : a1 < i := hops a1 (by simp)
        have h2 : a2 < i := hops a2 (by simp)
        split_ifs at ha with hc1 hc2
        · injection ha with hae
          subst hae
          simp only [List.map_cons, List.map_nil, if_pos h1, if_pos h2]
          show evalNode nodes w a1 = evalNode nodes w a1 * evalNode nodes w a2
          rw [kindConst_eval hc1 w, mul_one]
        · injection ha with hae
          subst hae
          simp only [List.map_cons, List.map_nil, if_pos h1, if_pos h2]
          show evalNode nodes w a2 = evalNode nodes w a1 * evalNode nodes w a2
          rw [kindConst_eval hc2 w, one_mul]
      case neg =>
        rcases ops with _ | ⟨a1, _ | ⟨a2, tl⟩⟩ <;> try cases ha
        dsimp only [] at ha
        cases hf2 : findNode nodes a1 with
        | none => rw [hf2] at ha; cases ha
        | some nd2 =>
          rw [hf2] at ha
          obtain ⟨kk2, ops2⟩ := nd2
          cases kk2 <;> try cases ha
          case neg =>
            rcases ops2 with _ | ⟨x, _ | ⟨y, tl2⟩⟩
            · cases ha
            · injection ha with hae
              subst hae
              have h1 : a1 < i := hops a1 (by simp)
              have hx : x < a1 := hA (a1, ⟨.neg, [x]⟩) (mem_findNode hf2) x (by simp)
              simp only [List.map_cons, List.map_nil, if_pos h1]
              show evalNode nodes w x = -(evalNode nodes w a1)
              rw [evalNode_some (w := w) hf2]
              simp only [List.map_cons, List.map_nil, if_pos hx]
              show evalNode nodes w x = -(-(evalNode nodes w x))
              rw [neg_neg]
            · cases ha
      case select =>
        rcases ops with _ | ⟨c, _ | ⟨a1, _ | ⟨a2, _ | ⟨a3, tl⟩⟩⟩⟩ <;> try cases ha
        dsimp only [] at ha
        cases hkc : kindConst nodes c with
        | none => rw [hkc] at ha; cases ha
        | some v =>
          rw [hkc] at ha
          injection ha with hae
          subst hae
          have hc : c < i := hops c (by simp)
          have h1 : a1 < i := hops a1 (by simp)
          have h2 : a2 < i := hops a2 (by simp)
          simp only [List.map_cons, List.map_nil, if_pos hc, if_pos h1, if_pos h2]
          show evalNode nodes w (if v = 1 then a1 else a2) =
            if evalNode nodes w c = 1 then evalNode nodes w a1 else evalNode nodes w a2
          rw [kindConst_eval hkc w]
          by_cases hv : v = 1
          · rw [if_pos hv, if_pos hv]
          · rw [if_neg hv, if_neg hv]

theorem algReplace_operands (nodes : List (Nat × Node)) (nd : Node) :
    algReplace nodes nd = ⟨.constNode 0, []⟩ ∨ algReplace nodes nd = nd := by
  unfold algReplace
  obtain ⟨kk, ops⟩ := nd
  cases kk <;> try exact Or.inr rfl
  case mul =>
    rcases ops with _ | ⟨a1, _ | ⟨a2, _ | ⟨a3, tl⟩⟩⟩ <;> try exact Or.inr rfl
    dsimp only []
    split_ifs
    · exact Or.inl rfl
    · exact Or.inr rfl

theorem algebraic_sound (g : IRGraph) (hA : AcyclicN g.nodes) (w : String → F) :
    ∀ i, evalNode (algebraic g).nodes w i = evalNode g.nodes w i := by
  apply eval_congr
  intro i
  unfold evalWith
  have hfn : findNode (algebraic g).nodes i =
      (findNode g.nodes i).map fun nd =>
        Node.mk (algReplace g.nodes nd).kind
          ((algReplace g.nodes nd).operands.map (algSigma g.nodes)) := by
    show findNode (mapRewire (algSigma g.nodes)
        (g.nodes.map fun p => (p.1, algReplace g.nodes p.2))) i = _
    rw [findNode_mapRewire, findNode_map]
    cases findNode g.nodes i <;> rfl
  rw [hfn]
  cases hf : findNode g.nodes i with
  | none => rw [evalNode_none hf]; rfl
  | some nd =>
    obtain ⟨kk, ops⟩ := nd
    have hops : ∀ j ∈ ops, j < i := fun j hj =>
      hA (i, ⟨kk, ops⟩) (mem_findNode hf) j hj
    have hgen : ∀ (k2 : NodeKind) (ops2 : List Nat), (∀ j ∈ ops2, j < i) →
        evalKind w k2 (List.map (fun j => if j < i then evalNode g.nodes w j else 0)
          (ops2.map (algSigma g.nodes)))
        = evalKind w k2 (List.map (fun j => if j < i then evalNode g.nodes w j else 0)
            ops2) := by
      intro k2 ops2 hops2
      rw [List.map_map]
      apply congrArg
      apply List.map_congr_left
      intro j hj
      have hji : j < i := hops2 j hj
      have hsj : algSigma g.nodes j ≤ j := algSigma_le hA j
      show (if algSigma g.nodes j < i then evalNode g.nodes w (algSigma g.nodes j) else 0)
        = if j < i then evalNode g.nodes w j else 0
      rw [if_pos (by omega), if_pos hji]
      exact algSigma_eval hA w j
    rw [evalNode_some hf]
    show evalKind w (algReplace g.nodes ⟨kk, ops⟩).kind
        (List.map (fun j => if j < i then evalNode g.nodes w j else 0)
          ((algReplace g.nodes ⟨kk, ops⟩).operands.map (algSigma g.nodes)))
      = evalKind w kk (List.map (fun j => if j < i then evalNode g.nodes w j else 0) ops)
    unfold algReplace
    cases kk <;> try exact hgen _ ops hops
    case mul =>
      rcases ops with _ | ⟨a1, _ | ⟨a2, _ | ⟨a3, tl⟩⟩⟩
      · exact hgen .mul [] hops
      · exact hgen .mul [a1] hops
      · dsimp only []
        by_cases hz : kindConst g.nodes a1 = some 0 ∨ kindConst g.nodes a2 = some 0
        · rw [if_pos hz]
          have h1 : a1 < i := hops a1 (by simp)
          have h2 : a2 < i := hops a2 (by simp)
          simp only [List.map_cons, List.map_nil, if_pos h1, if_pos h2]
          show (0 : F) = evalNode g.nodes w a1 * evalNode g.nodes w a2
          cases hz with
          | inl h => rw [kindConst_eval h w, zero_mul]
          | inr h => rw [kindConst_eval h w, mul_zero]
        · rw [if_neg hz]
          exact hgen .mul [a1, a2] hops
      · exact hgen .mul (a1 :: a2 :: a3 :: tl) hops

theorem algebraic_outputs (g : IRGraph) (hA : AcyclicN g.nodes) (w : String → F) :
    evalOutputs (algebraic g) w = evalOutputs g w := by
  unfold evalOutputs
  show ((g.outputs.map fun q => (q.1, algSigma g.nodes q.2)).map
      fun q => (q.1, evalNode (algebraic g).nodes w q.2)) = _
  rw [List.map_map]
  apply List.map_congr_left
  intro q hq
  show (q.1, evalNode (algebraic g).nodes w (algSigma g.nodes q.2))
    = (q.1, evalNode g.nodes w q.2)
  rw [algebraic_sound g hA w, algSigma_eval hA w]

theorem algebraic_acyclic (g : IRGraph) (hA : AcyclicN g.nodes) :
    AcyclicN (algebraic g).nodes := by
  intro p hp j hj
  have hp2 : p ∈ mapRewire (algSigma g.nodes)
      (g.nodes.map fun q => (q.1, algReplace g.nodes q.2)) := hp
  unfold mapRewire at hp2
  rw [List.map_map, List.mem_map] at hp2
  obtain ⟨q, hq, hpq⟩ := hp2
  obtain ⟨k2, nd2⟩ := q
  rw [← hpq] at hj ⊢
  simp only [Function.comp_apply] at hj ⊢
  simp only [List.mem_map] at hj
  obtain ⟨j0, hj0, hjs⟩ := hj
  have hj0lt : j0 < k2 := by
    cases algReplace_operands g.nodes nd2 with
    | inl h => rw [h] at hj0; cases hj0
    | inr h => rw [h] at hj0; exact hA (k2, nd2) hq j0 hj0
  have := algSigma_le hA j0
  show j < k2
  omega

theorem algebraic_sorted (g : IRGraph) (hS : SortedN g.nodes) :
    SortedN (algebraic g).nodes := by
  unfold algebraic mapRewire SortedN
  rw [List.map_map, List.pairwise_map]
  exact hS

/-! ### Strength-reduction pass -/

theorem strengthNode_operands_sub (nodes : List (Nat × Node)) (nd : Node) :
    ∀ j ∈ (strengthNode nodes nd).operands, j ∈ nd.operands := by
  intro j hj
  unfold strengthNode at hj
  obtain ⟨kk, ops⟩ := nd
  cases kk <;> try exact hj
  case mul =>
    rcases ops with _ | ⟨a1, _ | ⟨a2, _ | ⟨a3, tl⟩⟩⟩ <;> try exact hj
    dsimp only [] at hj
    split_ifs at hj
    · simp at hj
      simp [hj]
    · simp at hj
      simp [hj]
    · exact hj

theorem strength_sound (g : IRGraph) (hA : AcyclicN g.nodes) (w : String → F) :
    ∀ i, evalNode (strength g).nodes w i = evalNode g.nodes w i := by
  apply eval_congr
  intro i
  unfold evalWith
  have hfn : findNode (strength g).nodes i =
      (findNode g.nodes i).map (strengthNode g.nodes) :=
    findNode_map (strengthNode g.nodes) g.nodes i
  rw [hfn]
  cases hf : findNode g.nodes i with
  | none => rw [evalNode_none hf]; rfl
  | some nd =>
    rw [evalNode_some hf]
    obtain ⟨kk, ops⟩ := nd
    have hops : ∀ j ∈ ops, j < i := fun j hj =>
      hA (i, ⟨kk, ops⟩) (mem_findNode hf) j hj
    show evalKind w (strengthNode g.nodes ⟨kk, ops⟩).kind
        (List.map (fun j => if j < i then evalNode g.nodes w j else 0)
          (strengthNode g.nodes ⟨kk, ops⟩).operands)
      = evalKind w kk (List.map (fun j => if j < i then evalNode g.nodes w j else 0) ops)
    unfold strengthNode
    cases kk <;> try rfl
    case mul =>
      rcases ops with _ | ⟨a1, _ | ⟨a2, _ | ⟨a3, tl⟩⟩⟩ <;> try rfl
      dsimp only []
      have h1 : a1 < i := hops a1 (by simp)
      have h2 : a2 < i := hops a2 (by simp)
      by_cases hb : kindConst g.nodes a2 = some 2
      · rw [if_pos hb]
        simp only [List.map_cons, List.map_nil, if_pos h1, if_pos h2]
        show evalNode g.nodes w a1 + evalNode g.nodes w a1
          = evalNode g.nodes w a1 * evalNode g.nodes w a2
        rw [kindConst_eval hb w]
        ring
      · rw [if_neg hb]
        by_cases hc : kindConst g.nodes a1 = some 2
        · rw [if_pos hc]
          simp only [List.map_cons, List.map_nil, if_pos h1, if_pos h2]
          show evalNode g.nodes w a2 + evalNode g.nodes w a2
            = evalNode g.nodes w a1 * evalNode g.nodes w a2
          rw [kindConst_eval hc w]
          ring
        · rw [if_neg hc]

theorem strength_outputs (g : IRGraph) (hA : AcyclicN g.nodes) (w : String → F) :
    evalOutputs (strength g) w = evalOutputs g w := by
  unfold evalOutputs
  apply List.map_congr_left
  intro q hq
  show (q.1, evalNode (strength g).nodes w q.2) = (q.1, evalNode g.nodes w q.2)
  rw [strength_sound g hA w]

theorem strength_acyclic (g : IRGraph) (hA : AcyclicN g.nodes) :
    AcyclicN (strength g).nodes := by
  intro p hp j hj
  have hp2 : p ∈ g.nodes.map fun q => (q.1, strengthNode g.nodes q.2) := hp
  rw [List.mem_map] at hp2
  obtain ⟨q, hq, hpq⟩ := hp2
  rw [← hpq] at hj ⊢
  dsimp only [] at hj ⊢
  exact hA q hq j (strengthNode_operands_sub g.nodes q.2 j hj)

theorem strength_sorted (g : IRGraph) (hS : SortedN g.nodes) :
    SortedN (strength g).nodes := by
  show List.Pairwise _ (g.nodes.map fun q => (q.1, strengthNode g.nodes q.2))
  rw [List.pairwise_map]
  exact hS

/-! ### Constant-folding pass -/

theorem findHint_mem {hints : List (Nat × Option F)} {j : Nat} {v : F}
    (h : findHint hints j = some v) : (j, some v) ∈ hints := by
  induction hints with
  | nil => cases h
  | cons q rest ih =>
    obtain ⟨k, hv⟩ := q
    rw [findHint] at h
    by_cases hk : k = j
    · rw [if_pos hk] at h
      subst hk
      rw [h]
      exact List.mem_cons_self _ _
    · rw [if_neg hk] at h
      exact List.mem_cons_of_mem _ (ih h)

theorem evalKind_irrel (k : NodeKind) (hk : ∀ name, k ≠ .input name)
    (w w2 : String → F) (args : List F) : evalKind w k args = evalKind w2 k args := by
  cases k <;> first
    | exact absurd rfl (hk _)
    | (rcases args with _ | ⟨a, _ | ⟨b, _ | ⟨c, _ | ⟨d, t⟩⟩⟩⟩ <;> rfl)

theorem constStep_sound {nodesAll : List (Nat × Node)} {w : String → F} {i : Nat}
    {kk : NodeKind} {ops : List Nat} {hints : List (Nat × Option F)} {v : F}
    (hf : findNode nodesAll i = some ⟨kk, ops⟩)
    (hacyc : ∀ j ∈ ops, j < i)
    (hinv : ∀ q ∈ hints, ∀ v2, q.2 = some v2 → evalNode nodesAll w q.1 = v2)
    (hcs : constStep kk (ops.map fun j => if j < i then findHint hints j else none)
      = .ok (some v)) :
    evalNode nodesAll w i = v := by
  rw [evalNode_some hf]
  have harg : ∀ j ∈ ops, ∀ v2,
      (if j < i then findHint hints j else none) = some v2 →
      (if j < i then evalNode nodesAll w j else 0) = v2 := by
    intro j hj v2 he
    have hji : j < i := hacyc j hj
    rw [if_pos hji] at he ⊢
    exact hinv (j, some v2) (findHint_mem he) v2 rfl
  have hlist : ∀ (l : List Nat) (vals : List F),
      (∀ j ∈ l, ∀ v2, (if j < i then findHint hints j else none) = some v2 →
        (if j < i then evalNode nodesAll w j else 0) = v2) →
      seqOptions (l.map fun j => if j < i then findHint hints j else none) = some vals →
      (l.map fun j => if j < i then evalNode nodesAll w j else 0) = vals := by
    intro l
    induction l with
    | nil =>
      intro vals _ hm
      simp only [List.map_nil, seqOptions, Option.some.injEq] at hm
      exact hm
    | cons j l ih =>
      intro vals hargs hm
      simp only [List.map_cons] at hm
      cases hx : (if j < i then findHint hints j else none) with
      | none => rw [hx] at hm; cases hm
      | some a =>
        rw [hx] at hm
        rw [seqOptions, Option.map_eq_some'] at hm
        obtain ⟨tv, hseq, hv⟩ := hm
        rw [← hv]
        have htail := ih tv (fun j2 hj2 => hargs j2 (List.mem_cons_of_mem _ hj2)) hseq
        simp only [List.map_cons]
        rw [htail]
        congr 1
        exact hargs j (List.mem_cons_self _ _) a hx
  cases kk
  case input => simp [constStep] at hcs
  case output => simp [constStep] at hcs
  case constNode v2 =>
    simp [constStep] at hcs
    rw [← hcs]
    rfl
  case div =>
    rcases ops with _ | ⟨o1, _ | ⟨o2, _ | ⟨o3, t⟩⟩⟩
    · simp [constStep] at hcs
    · simp [constStep] at hcs
    · dsimp only [List.map_cons, List.map_nil] at hcs
      cases hx2 : (if o2 < i then findHint hints o2 else none) with
      | none => rw [hx2] at hcs; simp [constStep] at hcs
      | some b =>
        rw [hx2] at hcs
        by_cases hb : b = 0
        · simp only [constStep, if_pos hb] at hcs
          cases hcs
        · simp only [constStep, if_neg hb] at hcs
          cases hx1 : (if o1 < i then findHint hints o1 else none) with
          | none => rw [hx1] at hcs; cases hcs
          | some a =>
            rw [hx1] at hcs
            injection hcs with hcs
            injection hcs with hcs
            have h1 : o1 < i := hacyc o1 (by simp)
            have h2 : o2 < i := hacyc o2 (by simp)
            have e1 := harg o1 (by simp) a hx1
            have e2 := harg o2 (by simp) b hx2
            rw [if_pos h1] at e1
            rw [if_pos h2] at e2
            simp only [List.map_cons, List.map_nil, if_pos h1, if_pos h2]
            show evalNode nodesAll w o1 * (evalNode nodesAll w o2)⁻¹ = v
            rw [e1, e2]
            exact hcs
    · simp [constStep] at hcs
  all_goals (
    simp only [constStep] at hcs
    injection hcs with hcs
    rw [Option.map_eq_some'] at hcs
    obtain ⟨vals, hseq, hv⟩ := hcs
    rw [hlist ops vals harg hseq, ← hv]
    exact evalKind_irrel _ (by intro name h; cases h) w (fun _ => 0) vals)

theorem forall2_mem_right {α : Type} {R : α → α → Prop} :
    ∀ {l l2 : List α}, List.Forall₂ R l l2 → ∀ {q}, q ∈ l2 → ∃ p ∈ l, R p q := by
  intro l l2 h
  induction h with
  | nil => intro q hq; cases hq
  | cons hR htail ih =>
    intro q hq
    cases hq with
    | head => exact ⟨_, List.mem_cons_self _ _, hR⟩
    | tail _ hmem =>
      obtain ⟨p, hp, hpr⟩ := ih hmem
      exact ⟨p, List.mem_cons_of_mem _ hp, hpr⟩

theorem forall2_keys {R : (Nat × Node) → (Nat × Node) → Prop}
    (hkey : ∀ p q, R p q → p.1 = q.1) :
    ∀ {l l2 : List (Nat × Node)}, List.Forall₂ R l l2 →
      l.map Prod.fst = l2.map Prod.fst := by
  intro l l2 h
  induction h with
  | nil => rfl
  | cons hR htail ih =>
    simp only [List.map_cons]
    rw [hkey _ _ hR, ih]

theorem sortedN_iff (l : List (Nat × Node)) :
    SortedN l ↔ List.Pairwise (· < ·) (l.map Prod.fst) := by
  unfold SortedN
  rw [List.pairwise_map]

theorem forall2_findNode {R : (Nat × Node) → (Nat × Node) → Prop}
    {l l2 : List (Nat × Node)} (h : List.Forall₂ R l l2)
    (hkey : ∀ p q, R p q → p.1 = q.1) (i : Nat) :
    (findNode l i = none ∧ findNode l2 i = none) ∨
    ∃ nd nd2, findNode l i = some nd ∧ findNode l2 i = some nd2 ∧
      R (i, nd) (i, nd2) := by
  induction h with
  | nil => exact Or.inl ⟨rfl, rfl⟩
  | @cons a b l1 l3 hR htail ih =>
    obtain ⟨ka, nda⟩ := a
    obtain ⟨kb, ndb⟩ := b
    have hk : ka = kb := hkey (ka, nda) (kb, ndb) hR
    subst hk
    by_cases hki : ka = i
    · subst hki
      refine Or.inr ⟨nda, ndb, ?_, ?_, hR⟩
      · rw [findNode, if_pos rfl]
      · rw [findNode, if_pos rfl]
    · rcases ih with ⟨h1, h2⟩ | ⟨nd, nd2, hf1, hf2, hrel⟩
      · refine Or.inl ⟨?_, ?_⟩
        · rw [findNode, if_neg hki, h1]
        · rw [findNode, if_neg hki, h2]
      · refine Or.inr ⟨nd, nd2, ?_, ?_, hrel⟩
        · rw [findNode, if_neg hki, hf1]
        · rw [findNode, if_neg hki, hf2]

theorem cfGo_shape :
    ∀ (l : List (Nat × Node)) (hints : List (Nat × Option F)) (nds2 : List (Nat × Node)),
    cfGo hints l = .ok nds2 →
    List.Forall₂ (fun p q => p.1 = q.1 ∧
      (q.2 = p.2 ∨ ∃ v, q.2 = Node.mk (.constNode v) [])) l nds2 := by
  intro l
  induction l with
  | nil =>
    intro hints nds2 h
    injection h with h
    rw [← h]
    exact List.Forall₂.nil
  | cons p rest ih =>
    intro hints nds2 h
    obtain ⟨i, nd⟩ := p
    rw [cfGo] at h
    cases hcs : constStep nd.kind
        (nd.operands.map fun j => if j < i then findHint hints j else none) with
    | error e => rw [hcs] at h; cases h
    | ok hv =>
      simp only [hcs] at h
      cases hrec : cfGo ((i, hv) :: hints) rest with
      | error e => rw [hrec] at h; cases h
      | ok rest2 =>
        rw [hrec] at h
        injection h with h
        rw [← h]
        apply List.Forall₂.cons
        · refine ⟨rfl, ?_⟩
          cases hv with
          | none => exact Or.inl rfl
          | some v => exact Or.inr ⟨v, rfl⟩
        · exact ih ((i, hv) :: hints) rest2 hrec

theorem cfGo_eval (nodesAll : List (Nat × Node)) (w : String → F)
    (hA : AcyclicN nodesAll) :
    ∀ (l : List (Nat × Node)) (hints : List (Nat × Option F)) (nds2 : List (Nat × Node)),
    (∀ p ∈ l, findNode nodesAll p.1 = some p.2) →
    (∀ q ∈ hints, ∀ v2, q.2 = some v2 → evalNode nodesAll w q.1 = v2) →
    cfGo hints l = .ok nds2 →
    List.Forall₂ (fun p q => p.1 = q.1 ∧
      (q.2 = p.2 ∨ ∃ v, q.2 = Node.mk (.constNode v) [] ∧
        evalNode nodesAll w p.1 = v)) l nds2 := by
  intro l
  induction l with
  | nil =>
    intro hints nds2 _ _ h
    injection h with h
    rw [← h]
    exact List.Forall₂.nil
  | cons p rest ih =>
    intro hints nds2 hfind hinv h
    obtain ⟨i, nd⟩ := p
    obtain ⟨kk, ops⟩ := nd
    have hfi : findNode nodesAll i = some ⟨kk, ops⟩ :=
      hfind (i, ⟨kk, ops⟩) (List.mem_cons_self _ _)
    have hacyc : ∀ j ∈ ops, j < i := fun j hj =>
      hA (i, ⟨kk, ops⟩) (mem_findNode hfi) j hj
    rw [cfGo] at h
    cases hcs : constStep kk
        (ops.map fun j => if j < i then findHint hints j else none) with
    | error e => rw [hcs] at h; cases h
    | ok hv =>
      simp only [hcs] at h
      have hinv2 : ∀ q ∈ (i, hv) :: hints, ∀ v2, q.2 = some v2 →
          evalNode nodesAll w q.1 = v2 := by
        intro q hq v2 hqv
        rcases List.mem_cons.mp hq with heq | hq2
        · subst heq
          have hv2 : hv = some v2 := hqv
          rw [hv2] at hcs
          exact constStep_sound hfi hacyc hinv hcs
        · exact hinv q hq2 v2 hqv
      cases hrec : cfGo ((i, hv) :: hints) rest with
      | error e => rw [hrec] at h; cases h
      | ok rest2 =>
        rw [hrec] at h
        injection h with h
        rw [← h]
        apply List.Forall₂.cons
        · refine ⟨rfl, ?_⟩
          cases hv with
          | none => exact Or.inl rfl
          | some v =>
            exact Or.inr ⟨v, rfl, constStep_sound hfi hacyc hinv hcs⟩
        · exact ih ((i, hv) :: hints) rest2
            (fun p hp => hfind p (List.mem_cons_of_mem _ hp)) hinv2 hrec

theorem constFold_sound (g g2 : IRGraph) (hA : AcyclicN g.nodes) (hS : SortedN g.nodes)
    (h : constFold g = .ok g2) :
    g2.outputs = g.outputs ∧
    (∀ w i, evalNode g2.nodes w i = evalNode g.nodes w i) ∧
    AcyclicN g2.nodes ∧ SortedN g2.nodes := by
  unfold constFold at h
  cases hcf : cfGo [] g.nodes with
  | error e => rw [hcf] at h; cases h
  | ok nds2 =>
    rw [hcf] at h
    injection h with h
    subst h
    have hshape := cfGo_shape g.nodes [] nds2 hcf
    refine ⟨rfl, ?_, ?_, ?_⟩
    · intro w i
      have heval := cfGo_eval g.nodes w hA g.nodes [] nds2
        (fun p hp => findNode_mem hS hp) (by intro q hq; cases hq) hcf
      apply eval_congr
      intro i2
      unfold evalWith
      rcases forall2_findNode heval (fun p q hpq => hpq.1) i2 with
        ⟨hn1, hn2⟩ | ⟨nd, nd2, hf1, hf2, hrel⟩
      · rw [hn2, evalNode_none hn1]
      · obtain ⟨hkeq, hnd⟩ := hrel
        cases hnd with
        | inl he =>
          have he2 : nd2 = nd := he
          rw [hf2, he2, evalNode_some hf1]
        | inr hex =>
          obtain ⟨v, hq2, hev⟩ := hex
          have hq2b : nd2 = Node.mk (.constNode v) [] := hq2
          have hev2 : evalNode g.nodes w i2 = v := hev
          rw [hf2, hq2b, hev2]
          rfl
    · intro p hp j hj
      obtain ⟨porig, hpo, hrel⟩ := forall2_mem_right hshape hp
      obtain ⟨hkeq, hnd⟩ := hrel
      cases hnd with
      | inl he =>
        rw [← hkeq]
        rw [he] at hj
        exact hA porig hpo j hj
      | inr hex =>
        obtain ⟨v, hq2⟩ := hex
        rw [hq2] at hj
        cases hj
    · rw [sortedN_iff]
      rw [← forall2_keys (fun p q hpq => hpq.1) hshape]
      rw [← sortedN_iff]
      exact hS

/-! ### Common-subexpression-elimination pass -/

theorem lookupNat_mem : ∀ {s : List (Nat × Nat)} {a j : Nat},
    lookupNat s a = some j → (a, j) ∈ s := by
  intro s
  induction s with
  | nil => intro a j h; cases h
  | cons p rest ih =>
    intro a j h
    obtain ⟨k, v⟩ := p
    rw [lookupNat] at h
    by_cases hk : k = a
    · rw [if_pos hk] at h
      injection h with hv
      subst hk hv
      exact List.mem_cons_self _ _
    · rw [if_neg hk] at h
      exact List.mem_cons_of_mem _ (ih h)

theorem substOk_facts {subst : List (Nat × Nat)} {nodes : List (Nat × Node)}
    (h : substOkB subst nodes = true) {i j : Nat} (hmem : (i, j) ∈ subst) :
    j < i ∧ lookupNat subst j = none ∧
    ∃ ndI ndJ, findNode nodes i = some ndI ∧ findNode nodes j = some ndJ ∧
      nodeCompatB (substApply subst) ndI ndJ = true := by
  unfold substOkB at h
  rw [List.all_eq_true] at h
  have h2 := h (i, j) hmem
  simp only [Bool.and_eq_true, decide_eq_true_eq, Option.isNone_iff_eq_none] at h2
  obtain ⟨⟨hji, hnone⟩, hmatch⟩ := h2
  refine ⟨hji, hnone, ?_⟩
  cases hfi : findNode nodes i with
  | none =>
    cases hfj : findNode nodes j with
    | none => rw [hfi, hfj] at hmatch; cases hmatch
    | some ndJ => rw [hfi, hfj] at hmatch; cases hmatch
  | some ndI =>
    cases hfj : findNode nodes j with
    | none => rw [hfi, hfj] at hmatch; cases hmatch
    | some ndJ =>
      rw [hfi, hfj] at hmatch
      exact ⟨ndI, ndJ, rfl, rfl, hmatch⟩

theorem substApply_none {subst : List (Nat × Nat)} {a : Nat}
    (h : lookupNat subst a = none) : substApply subst a = a := by
  unfold substApply; rw [h]; rfl

theorem substApply_some {subst : List (Nat × Nat)} {a j : Nat}
    (h : lookupNat subst a = some j) : substApply subst a = j := by
  unfold substApply; rw [h]; rfl

theorem substApply_le {subst : List (Nat × Nat)} {nodes : List (Nat × Node)}
    (hok : substOkB subst nodes = true) (a : Nat) : substApply subst a ≤ a := by
  cases hl : lookupNat subst a with
  | none => rw [substApply_none hl]
  | some j =>
    rw [substApply_some hl]
    have := (substOk_facts hok (lookupNat_mem hl)).1
    omega

theorem substApply_kept {subst : List (Nat × Nat)} {nodes : List (Nat × Node)}
    (hok : substOkB subst nodes = true) (a : Nat) :
    lookupNat subst (substApply subst a) = none := by
  cases hl : lookupNat subst a with
  | none => rw [substApply_none hl]; exact hl
  | some j =>
    rw [substApply_some hl]
    exact (substOk_facts hok (lookupNat_mem hl)).2.1

theorem evalKind_comm {k : NodeKind} (hc : commKind k = true) (w : String → F)
    (x y : F) : evalKind w k [x, y] = evalKind w k [y, x] := by
  cases k <;>
    first
      | exact add_comm x y
      | exact mul_comm x y
      | (show (if x = y then (1 : F) else 0) = if y = x then 1 else 0
         simp [eq_comm])
      | cases hc

theorem cse_sigma_eval {subst : List (Nat × Nat)} {nodes : List (Nat × Node)}
    (hA : AcyclicN nodes) (hok : substOkB subst nodes = true) (w : String → F) :
    ∀ i, evalNode nodes w (substApply subst i) = evalNode nodes w i := by
  intro i
  induction i using Nat.strong_induction_on with
  | _ i ih =>
    cases hl : lookupNat subst i with
    | none => rw [substApply_none hl]
    | some j =>
      rw [substApply_some hl]
      obtain ⟨hji, hjnone, ndI, ndJ, hfi, hfj, hcompat⟩ :=
        substOk_facts hok (lookupNat_mem hl)
      have hopsI : ∀ a ∈ ndI.operands, a < i := fun a ha =>
        hA (i, ndI) (mem_findNode hfi) a ha
      have hopsJ : ∀ a ∈ ndJ.operands, a < j := fun a ha =>
        hA (j, ndJ) (mem_findNode hfj) a ha
      rw [evalNode_some hfj, evalNode_some hfi]
      have hgI : ndI.operands.map (fun a => if a < i then evalNode nodes w a else 0)
          = ndI.operands.map (evalNode nodes w) :=
        List.map_congr_left (fun a ha => if_pos (hopsI a ha))
      have hgJ : ndJ.operands.map (fun a => if a < j then evalNode nodes w a else 0)
          = ndJ.operands.map (evalNode nodes w) :=
        List.map_congr_left (fun a ha => if_pos (hopsJ a ha))
      rw [hgI, hgJ]
      have hI2 : ndI.operands.map (evalNode nodes w)
          = (ndI.operands.map (substApply subst)).map (evalNode nodes w) := by
        rw [List.map_map]
        apply List.map_congr_left
        intro a ha
        exact (ih a (hopsI a ha)).symm
      have hJ2 : ndJ.operands.map (evalNode nodes w)
          = (ndJ.operands.map (substApply subst)).map (evalNode nodes w) := by
        rw [List.map_map]
        apply List.map_congr_left
        intro a ha
        exact (ih a (lt_trans (hopsJ a ha) hji)).symm
      unfold nodeCompatB at hcompat
      simp only [Bool.and_eq_true, Bool.or_eq_true, decide_eq_true_eq] at hcompat
      obtain ⟨hkind, hrest⟩ := hcompat
      rw [← hkind, hI2, hJ2]
      cases hrest with
      | inl heq => rw [heq]
      | inr hsw =>
        obtain ⟨hcomm, hmatch⟩ := hsw
        revert hmatch
        rcases hml : ndI.operands.map (substApply subst) with
            _ | ⟨a, _ | ⟨b, _ | ⟨x, tl⟩⟩⟩ <;>
          rcases hmr : ndJ.operands.map (substApply subst) with
            _ | ⟨c, _ | ⟨d, _ | ⟨y, tr⟩⟩⟩ <;>
          intro hmatch <;>
          try cases hmatch
        simp only [Bool.and_eq_true, decide_eq_true_eq] at hmatch
        obtain ⟨had, hbc⟩ := hmatch
        rw [had, ← hbc]
        exact evalKind_comm hcomm w (evalNode nodes w b) (evalNode nodes w d)

theorem cse_kept_eval {subst : List (Nat × Nat)} {nodes : List (Nat × Node)}
    (hA : AcyclicN nodes) (hok : substOkB subst nodes = true) (w : String → F) :
    ∀ i, lookupNat subst i = none →
      evalNode ((mapRewire (substApply subst) nodes).filter
        fun p => (lookupNat subst p.1).isNone) w i = evalNode nodes w i := by
  intro i
  induction i using Nat.strong_induction_on with
  | _ i ih =>
    intro hkept
    have hf2 : findNode ((mapRewire (substApply subst) nodes).filter
          fun p => (lookupNat subst p.1).isNone) i
        = (findNode nodes i).map fun nd =>
            ⟨nd.kind, nd.operands.map (substApply subst)⟩ := by
      rw [findNode_filter _ _ _ (by intro nd; simp [hkept]), findNode_mapRewire]
    cases hfi : findNode nodes i with
    | none =>
      rw [evalNode_none (by rw [hf2, hfi]; rfl), evalNode_none hfi]
    | some nd =>
      have hf2s : findNode ((mapRewire (substApply subst) nodes).filter
            fun p => (lookupNat subst p.1).isNone) i
          = some ⟨nd.kind, nd.operands.map (substApply subst)⟩ := by
        rw [hf2, hfi]; rfl
      rw [evalNode_some hf2s, evalNode_some hfi]
      apply congrArg
      show ((nd.operands.map (substApply subst)).map
          fun j => if j < i then evalNode _ w j else 0) = _
      rw [List.map_map]
      apply List.map_congr_left
      intro a ha
      have hai : a < i := hA (i, nd) (mem_findNode hfi) a ha
      have hsa : substApply subst a ≤ a := substApply_le hok a
      show (if substApply subst a < i
          then evalNode ((mapRewire (substApply subst) nodes).filter
            fun p => (lookupNat subst p.1).isNone) w (substApply subst a) else 0)
        = if a < i then evalNode nodes w a else 0
      rw [if_pos (show substApply subst a < i by omega), if_pos hai]
      rw [ih (substApply subst a) (by omega) (substApply_kept hok a)]
      exact cse_sigma_eval hA hok w a

theorem cse_eq_pos (g : IRGraph)
    (hok : substOkB (cseScan g.nodes [] []) g.nodes = true) :
    cse g = IRGraph.mk
      ((mapRewire (substApply (cseScan g.nodes [] [])) g.nodes).filter
        (fun p => (lookupNat (cseScan g.nodes [] []) p.1).isNone))
      g.inputs
      (g.outputs.map (fun q => (q.1, substApply (cseScan g.nodes [] []) q.2))) := by
  simp only [cse]
  rw [if_pos hok]

theorem cse_eq_neg (g : IRGraph)
    (hok : ¬ substOkB (cseScan g.nodes [] []) g.nodes = true) : cse g = g := by
  simp only [cse]
  rw [if_neg hok]

theorem cse_outputs (g : IRGraph) (hA : AcyclicN g.nodes) (w : String → F) :
    evalOutputs (cse g) w = evalOutputs g w := by
  by_cases hok : substOkB (cseScan g.nodes [] []) g.nodes = true
  · rw [cse_eq_pos g hok]
    unfold evalOutputs
    rw [List.map_map]
    apply List.map_congr_left
    intro q hq
    show (q.1, evalNode _ w (substApply (cseScan g.nodes [] []) q.2))
      = (q.1, evalNode g.nodes w q.2)
    refine congrArg (Prod.mk q.1) ?_
    rw [cse_kept_eval hA hok w _ (substApply_kept hok q.2)]
    exact cse_sigma_eval hA hok w q.2
  · rw [cse_eq_neg g hok]

theorem cse_acyclic (g : IRGraph) (hA : AcyclicN g.nodes) :
    AcyclicN (cse g).nodes := by
  by_cases hok : substOkB (cseScan g.nodes [] []) g.nodes = true
  · rw [cse_eq_pos g hok]
    intro p hp j hj
    rw [List.mem_filter] at hp
    obtain ⟨hp2, _⟩ := hp
    unfold mapRewire at hp2
    rw [List.mem_map] at hp2
    obtain ⟨q, hq, hpq⟩ := hp2
    rw [← hpq] at hj ⊢
    dsimp only [] at hj ⊢
    rw [List.mem_map] at hj
    obtain ⟨a, ha, haj⟩ := hj
    have h1 := hA q hq a ha
    have h2 := substApply_le hok a
    omega
  · rw [cse_eq_neg g hok]
    exact hA

theorem sortedN_map_snd (f : Nat × Node → Node) (nodes : List (Nat × Node))
    (hS : SortedN nodes) : SortedN (nodes.map fun p => (p.1, f p)) := by
  unfold SortedN at hS ⊢
  rw [List.pairwise_map]
  exact hS

theorem cse_sorted (g : IRGraph) (hS : SortedN g.nodes) :
    SortedN (cse g).nodes := by
  by_cases hok : substOkB (cseScan g.nodes [] []) g.nodes = true
  · rw [cse_eq_pos g hok]
    apply List.Pairwise.sublist (List.filter_sublist _)
    exact sortedN_map_snd _ g.nodes hS
  · rw [cse_eq_neg g hok]
    exact hS

/-! ### Dead-code-elimination pass -/

theorem markGo_mono : ∀ (l : List (Nat × Node)) (acc : List Nat) (x : Nat),
    x ∈ acc → x ∈ markGo l acc := by
  intro l
  induction l with
  | nil => intro acc x hx; exact hx
  | cons p rest ih =>
    intro acc x hx
    obtain ⟨i, nd⟩ := p
    rw [markGo]
    apply ih
    by_cases hi : i ∈ acc
    · rw [if_pos hi]
      exact List.mem_append_right _ hx
    · rw [if_neg hi]
      exact hx

theorem markGo_sub : ∀ (l : List (Nat × Node)) (acc : List Nat) (x : Nat),
    x ∈ markGo l acc → x ∈ acc ∨ ∃ p ∈ l, x ∈ p.2.operands := by
  intro l
  induction l with
  | nil => intro acc x hx; exact Or.inl hx
  | cons p rest ih =>
    intro acc x hx
    obtain ⟨i, nd⟩ := p
    rw [markGo] at hx
    rcases ih _ x hx with hacc | ⟨q, hq, hqx⟩
    · by_cases hi : i ∈ acc
      · rw [if_pos hi] at hacc
        rcases List.mem_append.mp hacc with hops | hold
        · exact Or.inr ⟨(i, nd), List.mem_cons_self _ _, hops⟩
        · exact Or.inl hold
      · rw [if_neg hi] at hacc
        exact Or.inl hacc
    · exact Or.inr ⟨q, List.mem_cons_of_mem _ hq, hqx⟩

theorem markGo_closed :
    ∀ (l : List (Nat × Node)) (acc : List Nat),
    (∀ p ∈ l, ∀ j ∈ p.2.operands, j < p.1) →
    List.Pairwise (fun p q => q.1 < p.1) l →
    ∀ i nd, (i, nd) ∈ l → i ∈ markGo l acc →
      ∀ j ∈ nd.operands, j ∈ markGo l acc := by
  intro l
  induction l with
  | nil => intro acc _ _ i nd hmem; cases hmem
  | cons p rest ih =>
    intro acc hA hD i nd hmem hmark j hj
    obtain ⟨k, ndk⟩ := p
    rw [markGo] at hmark ⊢
    cases hmem with
    | head =>
      have hk : i ∈ acc := by
        by_contra hkn
        rw [if_neg hkn] at hmark
        rcases markGo_sub rest acc i hmark with hacc | ⟨q, hq, hqk⟩
        · exact hkn hacc
        · have h1 : i < q.1 := hA q (List.mem_cons_of_mem _ hq) i hqk
          have h2 : q.1 < i := (List.pairwise_cons.mp hD).1 q hq
          omega
      rw [if_pos hk] at hmark ⊢
      apply markGo_mono
      exact List.mem_append_left _ hj
    | tail _ hmem2 =>
      exact ih _ (fun q hq => hA q (List.mem_cons_of_mem _ hq))
        (List.pairwise_cons.mp hD).2 i nd hmem2 hmark j hj

theorem dce_outputs (g : IRGraph) (hA : AcyclicN g.nodes) (hS : SortedN g.nodes)
    (w : String → F) : evalOutputs (dce g) w = evalOutputs g w := by
  have hsub : ∀ i, i ∈ markGo g.nodes.reverse (g.outputs.map Prod.snd) →
      evalNode (dce g).nodes w i = evalNode g.nodes w i := by
    apply eval_sub
    · intro i hSi
      show findNode (g.nodes.filter _) i = findNode g.nodes i
      apply findNode_filter
      intro nd
      simpa using hSi
    · intro i nd hSi hf j hj
      apply markGo_closed g.nodes.reverse (g.outputs.map Prod.snd)
      · intro p hp
        exact hA p (List.mem_reverse.mp hp)
      · rw [List.pairwise_reverse]
        exact hS
      · exact List.mem_reverse.mpr (mem_findNode hf)
      · exact hSi
      · exact hj
  unfold evalOutputs
  show g.outputs.map _ = _
  apply List.map_congr_left
  intro q hq
  refine congrArg (Prod.mk q.1) ?_
  apply hsub
  apply markGo_mono
  exact List.mem_map_of_mem Prod.snd hq

theorem dce_acyclic (g : IRGraph) (hA : AcyclicN g.nodes) :
    AcyclicN (dce g).nodes := by
  intro p hp j hj
  exact hA p (List.mem_filter.mp hp).1 j hj

theorem dce_sorted (g : IRGraph) (hS : SortedN g.nodes) :
    SortedN (dce g).nodes := by
  exact List.Pairwise.sublist (List.filter_sublist _) hS

/-! ### Builder invariant preservation (`IRGraph::from_ast`) -/

theorem bpure_pres {α : Type} (a : α) : BPres (bpure a) := by
  intro s b s2 hI h
  unfold bpure at h
  injection h with h
  injection h with h1 h2
  subst h2
  exact hI

theorem throwB_pres {α : Type} (e : FCMCError) : BPres (throwB e : B α) := by
  intro s b s2 _ h
  cases h

theorem bbind_pres {α β : Type} {m : B α} {f : α → B β}
    (hm : BPres m) (hf : ∀ a, BPres (f a)) : BPres (bbind m f) := by
  intro s b s2 hI h
  unfold bbind at h
  cases hm2 : m s with
  | error e => rw [hm2] at h; cases h
  | ok p =>
    obtain ⟨a, s1⟩ := p
    rw [hm2] at h
    exact hf a s1 b s2 (hm s a s1 hI hm2) h

theorem ite_pres {α : Type} {c : Prop} [Decidable c] {m m2 : B α}
    (hm : BPres m) (hm2 : BPres m2) : BPres (if c then m else m2) := by
  intro s a s2 hI h
  by_cases hc : c
  · rw [if_pos hc] at h; exact hm s a s2 hI h
  · rw [if_neg hc] at h; exact hm2 s a s2 hI h

theorem newNode_pres (k : NodeKind) (ops : List Nat) : BPres (newNode k ops) := by
  intro s a s2 hI h
  unfold newNode at h
  by_cases hc : ∀ j ∈ ops, j < s.next
  · rw [if_pos hc] at h
    injection h with h
    injection h with h1 h2
    subst h2
    obtain ⟨hS, hB, hA⟩ := hI
    refine ⟨?_, ?_, ?_⟩
    · show SortedN (s.nodes ++ [(s.next, ⟨k, ops⟩)])
      apply List.pairwise_append.mpr
      refine ⟨hS, List.pairwise_singleton _ _, ?_⟩
      intro p hp q hq
      rw [List.mem_singleton] at hq
      subst hq
      exact hB p hp
    · intro p hp
      show p.1 < s.next + 1
      have hp2 : p ∈ s.nodes ++ [(s.next, ⟨k, ops⟩)] := hp
      rcases List.mem_append.mp hp2 with h1 | h2
      · have := hB p h1; omega
      · rw [List.mem_singleton] at h2; subst h2; omega
    · intro p hp j hj
      have hp2 : p ∈ s.nodes ++ [(s.next, ⟨k, ops⟩)] := hp
      rcases List.mem_append.mp hp2 with h1 | h2
      · exact hA p h1 j hj
      · rw [List.mem_singleton] at h2; subst h2; exact hc j hj
  · rw [if_neg hc] at h; cases h

theorem getEnvB_pres : BPres getEnvB := by
  intro s a s2 hI h
  injection h with h
  injection h with h1 h2
  subst h2
  exact hI

theorem setEnvB_pres (env : List (String × Nat)) : BPres (setEnvB env) := by
  intro s a s2 hI h
  injection h with h
  injection h with h1 h2
  subst h2
  exact hI

theorem modifyEnvB_pres (f : List (String × Nat) → List (String × Nat)) :
    BPres (modifyEnvB f) := by
  intro s a s2 hI h
  injection h with h
  injection h with h1 h2
  subst h2
  exact hI

theorem addOutputB_pres (name : String) (i : Nat) : BPres (addOutputB name i) := by
  intro s a s2 hI h
  injection h with h
  injection h with h1 h2
  subst h2
  exact hI

theorem mergeEnvs_pres (ci : Nat) :
    ∀ (l env1 env2 : List (String × Nat)), BPres (mergeEnvs ci l env1 env2) := by
  intro l
  induction l with
  | nil => intro env1 env2; exact bpure_pres _
  | cons p rest ih =>
    intro env1 env2
    obtain ⟨name, i0⟩ := p
    exact bbind_pres (ih env1 env2) fun m =>
      ite_pres (bpure_pres _)
        (bbind_pres (newNode_pres _ _) fun si => bpure_pres _)

theorem translateExpr_pres (e : Expression) : BPres (translateExpr e) := by
  refine @Expression.rec (fun e => BPres (translateExpr e)) (fun _ => True)
    ?_ ?_ ?_ ?_ ?_ ?_ ?_ trivial (fun _ _ _ _ => trivial) e
  · intro l
    cases l with
    | number str =>
      simp only [translateExpr]
      cases h : natOfDigits str with
      | some n => exact newNode_pres _ _
      | none => exact throwB_pres _
  · intro name
    refine bbind_pres getEnvB_pres fun env => ?_
    cases h : lookupStr env name with
    | some i => exact bpure_pres _
    | none => exact throwB_pres _
  · intro l op r ihl ihr
    refine bbind_pres ihl fun a => bbind_pres ihr fun b => ?_
    cases op with
    | add => exact newNode_pres _ _
    | sub => exact newNode_pres _ _
    | mul => exact newNode_pres _ _
    | div => exact newNode_pres _ _
    | mod => exact throwB_pres _
    | eq => exact newNode_pres _ _
    | ne => exact bbind_pres (newNode_pres _ _) fun e2 => newNode_pres _ _
    | lt => exact newNode_pres _ _
    | le => exact newNode_pres _ _
    | gt => exact newNode_pres _ _
    | ge => exact newNode_pres _ _
  · intro op e ih
    cases op with
    | neg => exact bbind_pres ih fun a => newNode_pres _ _
    | notOp => exact bbind_pres ih fun a => newNode_pres _ _
  · intro lhs rhs ihl ihr
    cases lhs with
    | var name =>
      exact bbind_pres ihr fun i => bbind_pres (modifyEnvB_pres _) fun _ => bpure_pres _
    | lit l => exact throwB_pres _
    | binary a op b => exact throwB_pres _
    | unary op a => exact throwB_pres _
    | assign a b => exact throwB_pres _
    | call n args => exact throwB_pres _
    | arr elems => exact throwB_pres _
  · intro name args ih
    exact throwB_pres _
  · intro elems ih
    exact throwB_pres _

theorem translateStmts_pres :
    ∀ (fuel : Nat) (stmts : List Statement), BPres (translateStmts fuel stmts) := by
  intro fuel
  induction fuel with
  | zero => intro stmts; exact throwB_pres _
  | succ f ih =>
    intro stmts
    cases stmts with
    | nil => exact bpure_pres _
    | cons stmt rest =>
      cases stmt with
      | letS name ty value =>
        exact bbind_pres (translateExpr_pres _) fun i =>
          bbind_pres (modifyEnvB_pres _) fun _ => ih rest
      | ret e =>
        exact bbind_pres (translateExpr_pres _) fun i => bpure_pres _
      | assertS e =>
        exact bbind_pres (translateExpr_pres _) fun i =>
          bbind_pres (addOutputB_pres _ _) fun _ => ih rest
      | exprS e =>
        exact bbind_pres (translateExpr_pres _) fun _ => ih rest
      | ifS c tB eB =>
        refine bbind_pres (translateExpr_pres _) fun ci => ?_
        refine bbind_pres getEnvB_pres fun env0 => ?_
        refine bbind_pres (ih tB) fun rt => ?_
        refine bbind_pres getEnvB_pres fun env1 => ?_
        refine bbind_pres (setEnvB_pres _) fun _ => ?_
        cases eB with
        | some es =>
          refine bbind_pres (ih es) fun re => ?_
          refine bbind_pres getEnvB_pres fun env2 => ?_
          cases rt with
          | none =>
            cases re with
            | none =>
              exact bbind_pres (mergeEnvs_pres ci env0 env1 env2) fun merged =>
                bbind_pres (setEnvB_pres _) fun _ => ih rest
            | some x => exact throwB_pres _
          | some x =>
            cases re with
            | none => exact throwB_pres _
            | some y => exact throwB_pres _
        | none =>
          refine bbind_pres (bpure_pres _) fun re => ?_
          refine bbind_pres getEnvB_pres fun env2 => ?_
          cases rt with
          | none =>
            cases re with
            | none =>
              exact bbind_pres (mergeEnvs_pres ci env0 env1 env2) fun merged =>
                bbind_pres (setEnvB_pres _) fun _ => ih rest
            | some x => exact throwB_pres _
          | some x =>
            cases re with
            | none => exact throwB_pres _
            | some y => exact throwB_pres _
      | forS v st en body =>
        simp only [translateStmts]
        cases h1 : constEvalExpr st with
        | none => exact throwB_pres _
        | some n1 =>
          cases h2 : constEvalExpr en with
          | none => exact throwB_pres _
          | some n2 => exact ih _

theorem bindParams_pres (qual : String) :
    ∀ (params : List (String × Ty)), BPres (bindParams qual params) := by
  intro params
  induction params with
  | nil => exact bpure_pres _
  | cons p rest ih =>
    obtain ⟨pname, ty⟩ := p
    show BPres (bbind (newNode (.input (qual ++ "." ++ pname)) []) fun i =>
      bbind (modifyEnvB fun env => (pname, i) :: env) fun _ => bindParams qual rest)
    exact bbind_pres (newNode_pres _ _) fun i =>
      bbind_pres (modifyEnvB_pres _) fun _ => ih

theorem translateFunction_pres (fn : Function) : BPres (translateFunction fn) := by
  show BPres (bbind (setEnvB []) fun _ =>
    bbind (bindParams fn.name fn.params) fun _ =>
      bbind (translateStmts stmtsFuel fn.body) fun r =>
        match r with
        | some i => bbind (newNode (.output fn.name) [i]) fun o =>
            addOutputB fn.name o
        | none => bpure ())
  refine bbind_pres (setEnvB_pres _) fun _ => ?_
  refine bbind_pres (bindParams_pres _ _) fun _ => ?_
  refine bbind_pres (translateStmts_pres _ _) fun r => ?_
  cases r with
  | some i => exact bbind_pres (newNode_pres _ _) fun o => addOutputB_pres _ _
  | none => exact bpure_pres _

theorem translateConstraint_pres (c : Constraint) : BPres (translateConstraint c) := by
  show BPres (bbind (setEnvB []) fun _ =>
    bbind (bindParams c.name c.params) fun _ =>
      bbind (translateExpr c.body) fun i =>
        bbind (newNode (.output c.name) [i]) fun o =>
          addOutputB c.name o)
  refine bbind_pres (setEnvB_pres _) fun _ => ?_
  refine bbind_pres (bindParams_pres _ _) fun _ => ?_
  refine bbind_pres (translateExpr_pres _) fun i => ?_
  exact bbind_pres (newNode_pres _ _) fun o => addOutputB_pres _ _

theorem translateFunctions_pres :
    ∀ (fns : List Function), BPres (translateFunctions fns) := by
  intro fns
  induction fns with
  | nil => exact bpure_pres _
  | cons fn rest ih =>
    exact bbind_pres (translateFunction_pres fn) fun _ => ih

theorem translateConstraints_pres :
    ∀ (cs : List Constraint), BPres (translateConstraints cs) := by
  intro cs
  induction cs with
  | nil => exact bpure_pres _
  | cons c rest ih =>
    exact bbind_pres (translateConstraint_pres c) fun _ => ih

theorem from_ast_WF (p : Program) (g : IRGraph)
    (h : IRGraph.from_ast p = .ok g) : IRGraph.WF g := by
  unfold IRGraph.from_ast at h
  cases hrun : (bbind (translateFunctions p.functions)
      (fun _ => translateConstraints p.constraints)) ⟨[], 0, [], []⟩ with
  | error e => rw [hrun] at h; cases h
  | ok q =>
    obtain ⟨u, s⟩ := q
    rw [hrun] at h
    injection h with h
    have hI : BInv s :=
      bbind_pres (translateFunctions_pres _)
        (fun _ => translateConstraints_pres _) ⟨[], 0, [], []⟩ u s
        ⟨List.Pairwise.nil, fun p2 hp2 => absurd hp2 (List.not_mem_nil p2),
          fun p2 hp2 => absurd hp2 (List.not_mem_nil p2)⟩
        hrun
    obtain ⟨hS, _, hA⟩ := hI
    rw [← h]
    exact ⟨hA, hS⟩

/-! ### Composition of the optimization pipeline -/

theorem strength_eval_outputs (g : IRGraph) (hA : AcyclicN g.nodes) (w : String → F) :
    evalOutputs (strength g) w = evalOutputs g w := by
  unfold evalOutputs
  apply List.map_congr_left
  intro q hq
  refine congrArg (Prod.mk q.1) ?_
  exact strength_sound g hA w q.2

theorem pass_sound (p : PassId) (g g2 : IRGraph) (hWF : IRGraph.WF g)
    (h : runPass p g = .ok g2) :
    IRGraph.WF g2 ∧ ∀ w, evalOutputs g2 w = evalOutputs g w := by
  obtain ⟨hA, hS⟩ := hWF
  cases p with
  | cf =>
    have h2 : constFold g = .ok g2 := h
    obtain ⟨hout, heval, hA2, hS2⟩ := constFold_sound g g2 hA hS h2
    refine ⟨⟨hA2, hS2⟩, ?_⟩
    intro w
    unfold evalOutputs
    rw [hout]
    apply List.map_congr_left
    intro q hq
    rw [heval w q.2]
  | alg =>
    have h2 : Except.ok (algebraic g) = Except.ok g2 := h
    injection h2 with h3
    subst h3
    exact ⟨⟨algebraic_acyclic g hA, algebraic_sorted g hS⟩,
      fun w => algebraic_outputs g hA w⟩
  | cseP =>
    have h2 : Except.ok (cse g) = Except.ok g2 := h
    injection h2 with h3
    subst h3
    exact ⟨⟨cse_acyclic g hA, cse_sorted g hS⟩, fun w => cse_outputs g hA w⟩
  | dceP =>
    have h2 : Except.ok (dce g) = Except.ok g2 := h
    injection h2 with h3
    subst h3
    exact ⟨⟨dce_acyclic g hA, dce_sorted g hS⟩, fun w => dce_outputs g hA hS w⟩
  | strengthP =>
    have h2 : Except.ok (strength g) = Except.ok g2 := h
    injection h2 with h3
    subst h3
    exact ⟨⟨strength_acyclic g hA, strength_sorted g hS⟩,
      fun w => strength_eval_outputs g hA w⟩

theorem runPasses_sound : ∀ (ps : List PassId) (g g2 : IRGraph), IRGraph.WF g →
    runPasses ps g = .ok g2 →
    IRGraph.WF g2 ∧ ∀ w, evalOutputs g2 w = evalOutputs g w := by
  intro ps
  induction ps with
  | nil =>
    intro g g2 hWF h
    injection h with h
    subst h
    exact ⟨hWF, fun w => rfl⟩
  | cons p rest ih =>
    intro g g2 hWF h
    rw [runPasses] at h
    cases hp : runPass p g with
    | error e => rw [hp] at h; cases h
    | ok g1 =>
      rw [hp] at h
      obtain ⟨hWF1, hev1⟩ := pass_sound p g g1 hWF hp
      obtain ⟨hWF2, hev2⟩ := ih g1 g2 hWF1 h
      exact ⟨hWF2, fun w => (hev2 w).trans (hev1 w)⟩

theorem optLoop_sound : ∀ (b : Nat) (ps : List PassId) (g g2 : IRGraph),
    IRGraph.WF g → optLoop b ps g = .ok g2 →
    IRGraph.WF g2 ∧ ∀ w, evalOutputs g2 w = evalOutputs g w := by
  intro b
  induction b with
  | zero =>
    intro ps g g2 hWF h
    injection h with h
    subst h
    exact ⟨hWF, fun w => rfl⟩
  | succ b ih =>
    intro ps g g2 hWF h
    rw [optLoop] at h
    cases hr : runPasses ps g with
    | error e => rw [hr] at h; cases h
    | ok g1 =>
      simp only [hr] at h
      by_cases heq : g1 = g
      · rw [if_pos heq] at h
        injection h with h
        subst h
        exact ⟨hWF, fun w => rfl⟩
      · rw [if_neg heq] at h
        obtain ⟨hWF1, hev1⟩ := runPasses_sound ps g g1 hWF hr
        obtain ⟨hWF2, hev2⟩ := ih ps g1 g2 hWF1 h
        exact ⟨hWF2, fun w => (hev2 w).trans (hev1 w)⟩

theorem constFold_acyclic (g g2 : IRGraph) (hA : AcyclicN g.nodes)
    (h : constFold g = .ok g2) : AcyclicN g2.nodes := by
  unfold constFold at h
  cases hcf : cfGo [] g.nodes with
  | error e => rw [hcf] at h; cases h
  | ok nds2 =>
    rw [hcf] at h
    injection h with h
    subst h
    have hshape := cfGo_shape g.nodes [] nds2 hcf
    intro p hp j hj
    obtain ⟨porig, hpo, hrel⟩ := forall2_mem_right hshape hp
    obtain ⟨hkeq, hnd⟩ := hrel
    cases hnd with
    | inl he =>
      rw [← hkeq]
      rw [he] at hj
      exact hA porig hpo j hj
    | inr hex =>
      obtain ⟨v, hq2⟩ := hex
      rw [hq2] at hj
      cases hj

theorem pass_acyclic (p : PassId) (g g2 : IRGraph) (hA : IRGraph.Acyclic g)
    (h : runPass p g = .ok g2) : IRGraph.Acyclic g2 := by
  cases p with
  | cf => exact constFold_acyclic g g2 hA h
  | alg =>
    have h2 : Except.ok (algebraic g) = Except.ok g2 := h
    injection h2 with h3
    subst h3
    exact algebraic_acyclic g hA
  | cseP =>
    have h2 : Except.ok (cse g) = Except.ok g2 := h
    injection h2 with h3
    subst h3
    exact cse_acyclic g hA
  | dceP =>
    have h2 : Except.ok (dce g) = Except.ok g2 := h
    injection h2 with h3
    subst h3
    exact dce_acyclic g hA
  | strengthP =>
    have h2 : Except.ok (strength g) = Except.ok g2 := h
    injection h2 with h3
    subst h3
    exact strength_acyclic g hA

/-- C3: for every optimization level `L` and every witness `w`, the graph
returned by `OptimizationFramework.optimize` at level `L` on a graph built by
`IRGraph.from_ast` evaluates to exactly the same Output values on `w` as the
unoptimized graph. -/
theorem c3_semantic_preservation (L : Nat) (ast : Program) (g g2 : IRGraph)
    (w : String → F) (hg : IRGraph.from_ast ast = .ok g)
    (hopt : OptimizationFramework.optimize L g = .ok g2) :
    evalOutputs g2 w = evalOutputs g w :=
  (optLoop_sound passBudget (passesFor L) g g2 (from_ast_WF ast g hg) hopt).2 w

set_option maxHeartbeats 4000000 in
/-- Concrete instance of C3: the demonstration program, built and optimized at
the default level 2, evaluates to the same outputs under the demonstration
witness. -/
theorem c3_semantic_preservation_witness :
    IRGraph.from_ast demoAst = .ok demoG ∧
    OptimizationFramework.optimize 2 demoG = .ok demoGopt ∧
    evalOutputs demoGopt demoW = evalOutputs demoG demoW :=
  ⟨by decide, by decide,
    c3_semantic_preservation 2 demoAst demoG demoGopt demoW (by decide) (by decide)⟩

/-- C4: every graph produced by IR construction (`IRGraph.from_ast`) has an
acyclic operand relation (each operand id strictly below its node's id), and
every optimization pass preserves that acyclicity. -/
theorem c4_acyclicity :
    (∀ (ast : Program) (g : IRGraph), IRGraph.from_ast ast = .ok g →
      IRGraph.Acyclic g) ∧
    (∀ (p : PassId) (g g2 : IRGraph), IRGraph.Acyclic g →
      runPass p g = .ok g2 → IRGraph.Acyclic g2) :=
  ⟨fun ast g hg => (from_ast_WF ast g hg).1, pass_acyclic⟩

set_option maxHeartbeats 4000000 in
/-- Concrete instance of C4: the demonstration graph is acyclic as built, and
stays acyclic through the algebraic pass. -/
theorem c4_acyclicity_witness :
    (IRGraph.from_ast demoAst = .ok demoG ∧ IRGraph.Acyclic demoG) ∧
    (IRGraph.Acyclic demoG ∧ runPass .alg demoG = .ok (algebraic demoG) ∧
      IRGraph.Acyclic (algebraic demoG)) :=
  ⟨⟨by decide, c4_acyclicity.1 demoAst demoG (by decide)⟩,
   ⟨show AcyclicN demoG.nodes by decide, rfl,
    c4_acyclicity.2 .alg demoG (algebraic demoG)
      (show AcyclicN demoG.nodes by decide) rfl⟩⟩
